import Mathlib

/-!
# Verification of the CSS-tree (`csstree.hpp`)

A shallow embedding of the static cache-sensitive search tree of
`include/csstree.hpp` (template `CSSTree<NodeSize, K>`), together with proofs
and refutations of the specification's claims about it.

Modelling conventions:
* keys (`K`, a totally ordered scalar) are modelled as `Int`;
* `std::vector<K>` is modelled as `List Int`; `vector::operator[]` is modelled
  with `List.getD _ _ 0` (an out-of-bounds access in the C++ is undefined
  behaviour; the builder's accesses are proved in bounds separately);
* `size_t` / `long` arithmetic is modelled with `Nat` / `Int`; the places where
  the C++ performs wrapping unsigned arithmetic are modelled explicitly
  (see `toSigned64`, `diffBuilder`, `diffFinder`);
* the floating point geometry (`ceil`, `log`, `pow` over `double`) is modelled
  by its exact mathematical value, computed with integer arithmetic;
* loops are modelled by fuel-based structural recursion so that every
  definition evaluates inside the kernel; each loop's fuel is proved
  sufficient where it matters.
-/

namespace CSS

/-- Number of key slots per internal node: `slots_per_node = NodeSize / sizeof(K)`. -/
def slotsPer (nodeSize kSize : Nat) : Nat := nodeSize / kSize

/-- `leaf_nodes = ceil(n / double(slots_per_node))`: the number of leaf groups of
size `s` (the source computes this with `double` arithmetic, exact for all
realistic sizes; modelled by exact ceiling division). -/
def leafNodes (s N : Nat) : Nat := (N + s - 1) / s

/-- Iterative computation of the least `acc` extending the start value with
`b ^ acc < target` false.  Used to model the source's
`tree_height = ceil(log(leaf_nodes)/log(slots_per_node+1))`, whose exact
mathematical value (for `leaf_nodes ≥ 1`) is the least `h` with
`(s+1)^h ≥ leaf_nodes`.  Fuel-based so that it evaluates in the kernel. -/
def hIter (b target : Nat) : Nat → Nat → Nat
  | 0, acc => acc
  | fuel + 1, acc => if b ^ acc < target then hIter b target fuel (acc + 1) else acc

/-- `tree_height`: the EXACT mathematical value of the expression
`ceil(log(leaf_nodes)/log(s+1))` the source computes, i.e. the least `h` with
`(s+1)^h ≥ leaf_nodes`.  The program evaluates the expression in `double`
through the platform's `libm` and can store a different value: on common
`libm`s it stores `tree_height + 1` whenever `leaf_nodes` is an exact power
of `s+1` (e.g. glibc at `s = 4`, `leaf_nodes = 125`), and for
`leaf_nodes = 0` (`N = 0`) it casts `log(0.0) = -inf` to `size_t`, which is
undefined behaviour.  The stored (platform-computed) height is therefore
modelled as an explicit parameter `hF` by the `..P` definition family below;
this definition is the spec-side exact value, and `hF = tree_height s N` is
the faithful instance exactly when the platform's rounding is exact. -/
def tree_height (s N : Nat) : Nat := hIter (s + 1) (leafNodes s N) (leafNodes s N) 0

/-- `expp = pow(slots_per_node + 1, tree_height)`. -/
def expp (s N : Nat) : Nat := (s + 1) ^ tree_height s N

/-- `last_internal_node = size_t((expp - leaf_nodes) / slots_per_node)`. -/
def last_internal (s N : Nat) : Nat := (expp s N - leafNodes s N) / s

/-- `n_internal_nodes = (expp - 1) / slots_per_node - last_internal_node`. -/
def n_internal (s N : Nat) : Nat := (expp s N - 1) / s - last_internal s N

/-- `half_marker = (expp - 1) / slots_per_node`. -/
def half_marker (s N : Nat) : Nat := (expp s N - 1) / s

/-- `n - last_internal_node * slots_per_node`: the number of leaves covered by
the non-wrapped ("first half") leaf groups; the right hand side of the
builder's in-range test. -/
def last_chunk (s N : Nat) : Nat := N - last_internal s N * s

/-- Derived notion: the breadth-first index of the first node of level `j` of
the conceptual full `(s+1)`-ary tree, `((s+1)^j - 1)/s`.  Level `j` spans
`[levH j, levH (j+1))`; `half_marker = levH tree_height`. -/
def levH (s j : Nat) : Nat := ((s + 1) ^ j - 1) / s

/-- One step of the builder's rightmost-branch loop:
`child = child * (slots_per_node + 1) + slots_per_node + 1`. -/
def rstep (s c : Nat) : Nat := (c + 1) * (s + 1)

/-- Fuel-based model of `while (child < n_internal_nodes) child = rstep child`.
The child index strictly increases, so fuel `n_internal` is sufficient. -/
def descRF (M s : Nat) : Nat → Nat → Nat
  | 0, c => c
  | fuel + 1, c => if c < M then descRF M s fuel (rstep s c) else c

/-- The rightmost-descent loop of the builder (and, implicitly, the index of
the leaf whose largest element a slot summarises). -/
def descRight (s N c : Nat) : Nat := descRF (n_internal s N) s (n_internal s N) c

/-- One step of a leftmost descent: `child * (s+1) + 1`, i.e. the first child.
Not a loop of the source; used to state which leaf slice a subtree starts at. -/
def lstep (s c : Nat) : Nat := c * (s + 1) + 1

/-- Fuel-based leftmost descent: follow first children until the index leaves
the internal region. -/
def descLF (M s : Nat) : Nat → Nat → Nat
  | 0, c => c
  | fuel + 1, c => if c < M then descLF M s fuel (lstep s c) else c

/-- Leftmost descent to a leaf (derived notion used in statements). -/
def descLeft (s N c : Nat) : Nat := descLF (n_internal s N) s (n_internal s N) c

/-- Derived notion: the first leaf position covered by the (pruned-tree) leaf
with breadth-first index `c ≥ n_internal`.  Children below the half marker wrap
to the second half of the data (the source's negative-`diff` branch); children
at or above it map onto the first half, clamped at `last_chunk` exactly as the
builder's special-case branch does. -/
def effStart (s N c : Nat) : Nat :=
  if c < half_marker s N then N - (half_marker s N - c) * s
  else min ((c - half_marker s N) * s) (last_chunk s N)

/-- Derived notion: one past the last leaf position covered by leaf `c`
(see `effStart`). -/
def effEnd (s N c : Nat) : Nat :=
  if c < half_marker s N then N - (half_marker s N - c) * s + s
  else min ((c - half_marker s N) * s + s) (last_chunk s N)

/-- First leaf position covered by the subtree rooted at child index `c`. -/
def startB (s N c : Nat) : Nat := effStart s N (descLeft s N c)

/-- One past the last leaf position covered by the subtree rooted at child
index `c`. -/
def endB (s N c : Nat) : Nat := effEnd s N (descRight s N c)

/-- The child index a tree slot `i` summarises:
`node = i / s;  child = node * (s+1) + 1 + i % s`. -/
def slotChild (s i : Nat) : Nat := (i / s) * (s + 1) + 1 + i % s

/-- The value the builder stores into `tree[i]` (the loop body of the
constructor).  The iterations of the source's reverse-order loop are
independent — each only reads `leaves` — so the slot value is a function
of `i`. -/
def slotVal (s N : Nat) (L : List Int) (i : Nat) : Int :=
  let c := descRight s N (slotChild s i)
  let diff : Int := ((c : Int) - half_marker s N) * s
  if diff < 0 then
    L.getD (diff + N + s - 1).toNat 0
  else if diff + s - 1 < (N : Int) - last_internal s N * s then
    L.getD (diff + s - 1).toNat 0
  else
    L.getD (last_chunk s N - 1) 0

/-- `tree = vector(n_internal_nodes * slots_per_node)` filled by the builder. -/
def treeList (s N : Nat) (L : List Int) : List Int :=
  (List.range (n_internal s N * s)).map (slotVal s N L)

/-- The container: mirrors the data members of `CSSTree<NodeSize, K>`.
`nodeSize` and `kSize` record the template parameters (`kSize = sizeof(K)`). -/
structure CSSTree where
  nodeSize : Nat
  kSize : Nat
  slots_per_node : Nat
  tree_height : Nat
  half_marker : Nat
  n_internal_nodes : Nat
  tree : List Int
  leaves : List Int
deriving DecidableEq, Repr

/-- The constructor body after the sortedness check. -/
def cssCtor (nodeSize kSize : Nat) (data : List Int) : CSSTree :=
  let s := slotsPer nodeSize kSize
  { nodeSize := nodeSize
    kSize := kSize
    slots_per_node := s
    tree_height := tree_height s data.length
    half_marker := half_marker s data.length
    n_internal_nodes := n_internal s data.length
    tree := treeList s data.length data
    leaves := data }

/-- `std::is_sorted(data.begin(), data.end())`: adjacent-pair check. -/
def isSortedB : List Int → Bool
  | [] => true
  | [_] => true
  | a :: b :: t => decide (a ≤ b) && isSortedB (b :: t)

/-- The one runtime error kind of the container. -/
inductive CSSError where
  | unsortedInput
deriving DecidableEq, Repr

/-- The full constructor: `throw std::invalid_argument` on unsorted input is
modelled as `Except.error .unsortedInput`; on failure no tree is produced
(all-or-nothing). -/
def cssNew (nodeSize kSize : Nat) (data : List Int) : Except CSSError CSSTree :=
  if isSortedB data then .ok (cssCtor nodeSize kSize data) else .error .unsortedInput

/-- The scan `for (; lo != hi && *lo < key; ++lo);` of `find_in_leaves`,
counted: returns the first position `p ∈ [a, b)` with `¬ (L[p] < key)`, or `b`.
`rem` is the remaining iteration budget, called with `rem = b - a`. -/
def scanCnt (L : List Int) (key : Int) : Nat → Nat → Nat
  | 0, a => a
  | rem + 1, a => if L.getD a 0 < key then scanCnt L key rem (a + 1) else a

/-- First position `p ∈ [a, b)` with `L[p] ≥ key`, else `b` (the scan loop of
`find_in_leaves`). -/
def scanGE (L : List Int) (a b : Nat) (key : Int) : Nat := scanCnt L key (b - a) a

/-- `find_in_leaves(lo, hi, key)`, with iterators as indices into `leaves`.
The source ends with `key == *lo ? lo : end()`.  When the scan stops at
`p < leaves.size()` this compares `leaves[p]`; when it stops at
`p = leaves.size()` the source reads one past the end of the vector
(undefined behaviour, see the claim about bounds), but since `lo = end()`
there, *both* branches of the conditional return `end()`, modelled `none`. -/
def find_in_leaves (L : List Int) (a b : Nat) (key : Int) : Option Nat :=
  let p := scanGE L a b key
  if hp : p < L.length then (if L.get ⟨p, hp⟩ = key then some p else none)
  else none

/-- The linear per-node strategy (`NodeSize ≤ 256`):
`for (lo = 0; lo < slots_per_node && tree[index_in_tree + lo] < key; ++lo);`.
`rem` is the remaining budget, called with `rem = s`. -/
def scanLoCnt (T : List Int) (base : Nat) (key : Int) : Nat → Nat → Nat
  | 0, lo => lo
  | rem + 1, lo => if T.getD (base + lo) 0 < key then scanLoCnt T base key rem (lo + 1) else lo

/-- The number of slots the linear strategy skips at node `child`. -/
def scanLo (T : List Int) (s child : Nat) (key : Int) : Nat :=
  scanLoCnt T (child * s) key s 0

/-- The classic `std::lower_bound` half-interval algorithm (as implemented by
the major standard libraries), over positions `[first, first + len)` of `T`.
Fuel-based: every recursive call strictly decreases `len`, and the callee's
`len` is at most `fuel` whenever the caller's was, so fuel `len` suffices. -/
def lbF (T : List Int) (key : Int) : Nat → Nat → Nat → Nat
  | 0, first, _ => first
  | fuel + 1, first, len =>
    if len = 0 then first
    else
      let half := len / 2
      if T.getD (first + half) 0 < key then lbF T key fuel (first + half + 1) (len - half - 1)
      else lbF T key fuel first half

/-- `std::lower_bound(lo, hi, key)` over positions `[first, first+len)`. -/
def lowerBound (T : List Int) (key : Int) (first len : Nat) : Nat := lbF T key len first len

/-- The binary per-node strategy (`NodeSize > 256`):
`hi = min(tree.cend(), lo + slots_per_node + 1);  pos = lower_bound(lo, hi, key);
if (pos == hi) --pos;  lo = distance(lo, pos)`.
Note that the searched window is `s + 1` slots long (one slot into the *next*
node) except at the last node, where it is clipped at `tree.cend()`. -/
def binLo (T : List Int) (s M child : Nat) (key : Int) : Nat :=
  let base := child * s
  let len := min (s + 1) (M * s - base)
  let pos := lowerBound T key base len
  let pos2 := if pos = base + len then pos - 1 else pos
  pos2 - base

/-- The strategy choice of the source: binary search `if (NodeSize > 256)`,
otherwise linear scan. -/
def loStep (useBin : Bool) (T : List Int) (s M child : Nat) (key : Int) : Nat :=
  if useBin then binLo T s M child key else scanLo T s child key

/-- Fuel-based model of the descent loop
`while (child < n_internal_nodes) child = child * (s+1) + 1 + lo;`.
The child strictly increases, so fuel `M` suffices. -/
def findLoopF (useBin : Bool) (T : List Int) (s M : Nat) (key : Int) : Nat → Nat → Nat
  | 0, child => child
  | fuel + 1, child =>
    if child < M then
      findLoopF useBin T s M key fuel (child * (s + 1) + 1 + loStep useBin T s M child key)
    else child

/-- The final child index reached by the descent, starting from `child = 0`. -/
def findChild (useBin : Bool) (T : List Int) (s M : Nat) (key : Int) : Nat :=
  findLoopF useBin T s M key M 0

/-- The leaf window `[a, b)` the search hands to `find_in_leaves`:
`diff = (long(child) - long(half_marker)) * slots_per_node;
 if (diff < 0) diff += leaves.size();
 lo = cbegin + min(size, size_t(diff));  hi = cbegin + min(size, diff + s)`. -/
def leafWindow (s N H child : Nat) : Nat × Nat :=
  let diff : Int := ((child : Int) - (H : Int)) * s
  let diff2 := if diff < 0 then diff + N else diff
  (min N diff2.toNat, min N (diff2 + s).toNat)

/-- `find(key)`, with the strategy passed explicitly (the source fixes it from
the compile-time `NodeSize`; see `find`). -/
def findWith (useBin : Bool) (t : CSSTree) (key : Int) : Option Nat :=
  if t.n_internal_nodes = 0 then find_in_leaves t.leaves 0 t.leaves.length key
  else
    let child := findChild useBin t.tree t.slots_per_node t.n_internal_nodes key
    let w := leafWindow t.slots_per_node t.leaves.length t.half_marker child
    find_in_leaves t.leaves w.1 w.2 key

/-- `find(key)`: returns the index of an element equal to `key`, or `none`
(the past-the-end iterator). -/
def find (t : CSSTree) (key : Int) : Option Nat := findWith (256 < t.nodeSize) t key

/-- `size_in_bytes() = tree.size() * sizeof(K)`. -/
def size_in_bytes (t : CSSTree) : Nat := t.tree.length * t.kSize

/-- `height() = tree_height`. -/
def height (t : CSSTree) : Nat := t.tree_height

/-- `size() = leaves.size()`. -/
def size (t : CSSTree) : Nat := t.leaves.length

/-- Whether the final scan of `find(key)` runs off the end of its leaf window,
so that the subsequent `key == *lo` dereferences the window's one-past-the-end
position (out of bounds whenever that position is `leaves.size()`). -/
def findOverrun (t : CSSTree) (key : Int) : Bool :=
  if t.n_internal_nodes = 0 then
    decide (scanGE t.leaves 0 t.leaves.length key = t.leaves.length)
  else
    let child := findChild (256 < t.nodeSize) t.tree t.slots_per_node t.n_internal_nodes key
    let w := leafWindow t.slots_per_node t.leaves.length t.half_marker child
    decide (scanGE t.leaves w.1 w.2 key = w.2)

/-- Bounded breadth-first descendant test for the conceptual full tree:
`isDescB f d c` holds when the node numbered `d` lies in the subtree rooted at
the node numbered `c`, searching through at most `f` levels.  Children of `c`
are `c*(s+1)+1 … c*(s+1)+s+1` (the data model of the specification). -/
def isDescB (s : Nat) : Nat → Nat → Nat → Bool
  | 0, d, c => decide (d = c)
  | f + 1, d, c =>
    decide (d = c) || (List.range (s + 1)).any fun j => isDescB s f d (c * (s + 1) + 1 + j)

/-- Two's-complement reinterpretation of a 64-bit unsigned value as `long`
(implementation-defined in C++, universally two's complement). -/
def toSigned64 (v : Nat) : Int :=
  if v < 2 ^ 63 then (v : Int) else (v : Int) - 2 ^ 64

/-- The builder's `long diff = (child - half_marker) * slots_per_node;`:
`child` and `half_marker` are `size_t`, so the subtraction and multiplication
wrap modulo `2^64` before the value is reinterpreted as `long`. -/
def diffBuilder (c H s : Nat) : Int :=
  toSigned64 ((c + 2 ^ 64 - H % 2 ^ 64) % 2 ^ 64 * s % 2 ^ 64)

/-- The searcher's `long diff = (long(child) - long(half_marker)) * slots_per_node;`:
the subtraction is signed, but the multiplication by the `size_t` constant
`slots_per_node` converts the difference back to `size_t` (wrapping), and the
product is reinterpreted as `long` on assignment. -/
def diffFinder (c H s : Nat) : Int :=
  toSigned64 (((((c : Int) - (H : Int)) % (2 ^ 64 : Int)).toNat) * s % 2 ^ 64)

end CSS

namespace CSS

/-! ## Concrete instances used by counterexamples and witnesses -/

/-- `S4` of the specification: `CSSTree<2, int16_t>` over `1..17` (`s = 1`). -/
def dataA : List Int := [1, 2, 3, 4, 5, 6, 7, 8, 9, 10, 11, 12, 13, 14, 15, 16, 17]

/-- `0..506` as keys: a sorted input for `CSSTree<352, K>` with `sizeof(K) = 16`
(e.g. `K = __int128`), giving fanout `s = 22` and a two-node tree. -/
def dataB : List Int := (List.range 507).map (fun n => (n : Int))

/-- `0..6` as keys for `CSSTree<4, int16_t>` (`s = 2`): the smallest tree whose
builder takes the special-case branch. -/
def dataC : List Int := [0, 1, 2, 3, 4, 5, 6]

/-- `0..39` as keys for `CSSTree<264, int64_t>` (`s = 33 > 256/8`, binary-search
regime, a single internal node). -/
def dataD : List Int := (List.range 40).map (fun n => (n : Int))

/-- `0..496` as keys for `CSSTree<32, int64_t>` (`s = 4`): `leaf_nodes = 125`
is the exact power `5^3`, the inputs on which the source's floating-point
height computation rounds up (see `tree_height` and the `P`-family below). -/
def data497 : List Int := (List.range 497).map (fun n => (n : Int))

/-! ## The geometry with the platform-computed height as a parameter

The source computes `tree_height = size_t(ceil(log(leaf_nodes) /
log(slots_per_node + 1)))` in `double` through the platform's `libm`, which is
not part of this repository.  `tree_height` above is the exact mathematical
value of that expression (the least `h` with `(s+1)^h ≥ leaf_nodes`); the
value the program actually stores is whatever the `double` computation
returns, and on common `libm`s the two differ whenever `leaf_nodes` is an
exact power of `s+1` (glibc: `log(125.0)/log(5.0) = 3.0000000000000004`, so
`ceil` yields `4` where the exact value is `3`; `pow` and the remaining
conversions are exact at such sizes).  The definitions below take that
computed height as an explicit parameter `hF`, so the stored geometry of a
build on any platform is an instance; `hF = tree_height s N` recovers the
exact-geometry model (see the `..P_exact` bridge theorems). -/

/-- `last_internal_node` as stored, with computed height `hF`. -/
def last_internalP (s N hF : Nat) : Nat := ((s + 1) ^ hF - leafNodes s N) / s

/-- `n_internal_nodes` as stored, with computed height `hF`. -/
def n_internalP (s N hF : Nat) : Nat := ((s + 1) ^ hF - 1) / s - last_internalP s N hF

/-- `half_marker` as stored, with computed height `hF` (unlike `half_marker`,
all the `N`-dependence is through the computed height, so `N` is unused; the
parameter is kept for uniformity with the other stored fields). -/
def half_markerP (s _N hF : Nat) : Nat := ((s + 1) ^ hF - 1) / s

/-- `n - last_internal_node * slots_per_node`, with computed height `hF`. -/
def last_chunkP (s N hF : Nat) : Nat := N - last_internalP s N hF * s

/-- The builder's rightmost descent, with computed height `hF`. -/
def descRightP (s N hF c : Nat) : Nat :=
  descRF (n_internalP s N hF) s (n_internalP s N hF) c

/-- The value the builder stores into `tree[i]`, with computed height `hF`
(the loop body of the constructor over the stored geometry). -/
def slotValP (s N hF : Nat) (L : List Int) (i : Nat) : Int :=
  let c := descRightP s N hF (slotChild s i)
  let diff : Int := ((c : Int) - half_markerP s N hF) * s
  if diff < 0 then
    L.getD (diff + N + s - 1).toNat 0
  else if diff + s - 1 < (N : Int) - last_internalP s N hF * s then
    L.getD (diff + s - 1).toNat 0
  else
    L.getD (last_chunkP s N hF - 1) 0

/-- The internal buffer filled by the builder, with computed height `hF`. -/
def treeListP (s N hF : Nat) (L : List Int) : List Int :=
  (List.range (n_internalP s N hF * s)).map (slotValP s N hF L)

/-- The constructor body after the sortedness check, with the height the
platform's `double` computation produced passed as `hF`. -/
def cssCtorP (nodeSize kSize hF : Nat) (data : List Int) : CSSTree :=
  let s := slotsPer nodeSize kSize
  { nodeSize := nodeSize
    kSize := kSize
    slots_per_node := s
    tree_height := hF
    half_marker := half_markerP s data.length hF
    n_internal_nodes := n_internalP s data.length hF
    tree := treeListP s data.length hF data
    leaves := data }

/-- The leaf window of `find` with the `size_t` casts of the source spelled
out: `lo = cbegin + min(size, size_t(diff))` and
`hi = cbegin + min(size, diff + slots_per_node)` (the `long` value is
converted to `size_t`, i.e. taken modulo `2^64`, in both positions; when
`0 ≤ diff` and `diff + s ≤ 2^64` this coincides with `leafWindow`). -/
def leafWindowC (s N H child : Nat) : Nat × Nat :=
  let diff : Int := ((child : Int) - (H : Int)) * s
  let diff2 := if diff < 0 then diff + N else diff
  (min N ((diff2 % 2 ^ 64).toNat), min N (((diff2 + s) % 2 ^ 64).toNat))

end CSS

namespace CSS

/-! ## Generic facts about the searcher's return value -/

/-- `find_in_leaves` only ever returns a position holding the key. -/
theorem find_in_leaves_mem {L : List Int} {a b : Nat} {k : Int} {p : Nat}
    (h : find_in_leaves L a b k = some p) : ∃ hp : p < L.length, L.get ⟨p, hp⟩ = k := by
  unfold find_in_leaves at h
  by_cases hlt : scanGE L a b k < L.length
  · rw [dif_pos hlt] at h
    by_cases he : L.get ⟨scanGE L a b k, hlt⟩ = k
    · rw [if_pos he] at h
      cases h
      exact ⟨hlt, he⟩
    · rw [if_neg he] at h
      cases h
  · rw [dif_neg hlt] at h
    cases h

/-- Whatever the strategy, `find` only ever returns a position holding the key. -/
theorem findWith_mem {useBin : Bool} {t : CSSTree} {k : Int} {p : Nat}
    (h : findWith useBin t k = some p) : ∃ hp : p < t.leaves.length, t.leaves.get ⟨p, hp⟩ = k := by
  unfold findWith at h
  by_cases h0 : t.n_internal_nodes = 0
  · rw [if_pos h0] at h
    exact find_in_leaves_mem h
  · rw [if_neg h0] at h
    exact find_in_leaves_mem h

/-- If the key does not occur among the leaves, `find` returns the sentinel. -/
theorem findWith_not_mem (useBin : Bool) (t : CSSTree) (k : Int) (hk : k ∉ t.leaves) :
    findWith useBin t k = none := by
  rcases h : findWith useBin t k with _ | p
  · rfl
  · exfalso
    obtain ⟨hp, he⟩ := findWith_mem h
    exact hk (he ▸ List.get_mem t.leaves p hp)

/-! ## C2: absent keys are reported by the past-the-end sentinel -/

/-- C2.  For every tree constructed from a sorted sequence and every key `k`
not occurring in it — in particular below the minimum, above the maximum, or
strictly between two consecutive distinct leaf values — `find k` returns the
past-the-end sentinel (`none`).  (The result needs only `k ∉ data`: the final
comparison `key == *lo` can only succeed on an element of the leaf vector.) -/
theorem c2_absent_key_returns_end (nodeSize kSize : Nat) (data : List Int) (k : Int)
    (_hsorted : List.Pairwise (· ≤ ·) data) (hk : k ∉ data) :
    find (cssCtor nodeSize kSize data) k = none :=
  findWith_not_mem _ _ _ hk

/-- Witness for C2 on scenario `S4`: `find 42 = end()` and `find (-1) = end()`. -/
theorem c2_absent_key_returns_end_witness :
    find (cssCtor 2 2 dataA) 42 = none ∧ find (cssCtor 2 2 dataA) (-1) = none :=
  ⟨c2_absent_key_returns_end 2 2 dataA 42 (by decide) (by decide),
   c2_absent_key_returns_end 2 2 dataA (-1) (by decide) (by decide)⟩

/-! ## C3: the constructor rejects exactly the non-sorted inputs -/

/-- The source's `std::is_sorted` check holds iff adjacent elements are ordered. -/
theorem isSortedB_iff_chain : ∀ l : List Int, isSortedB l = true ↔ List.Chain' (· ≤ ·) l
  | [] => by simp [isSortedB]
  | [a] => by simp [isSortedB]
  | a :: b :: t => by
    rw [isSortedB, Bool.and_eq_true, decide_eq_true_iff, isSortedB_iff_chain (b :: t),
      List.chain'_cons]

/-- The source's `std::is_sorted` check holds iff the list is non-decreasing. -/
theorem isSortedB_iff (l : List Int) : isSortedB l = true ↔ List.Pairwise (· ≤ ·) l := by
  rw [isSortedB_iff_chain, List.chain'_iff_pairwise]

/-- C3.  Construction fails with `UnsortedInput` exactly on inputs that are not
non-decreasing, and the failure is all-or-nothing (an `error` carries no tree);
every non-decreasing input constructs successfully. -/
theorem c3_ctor_rejects_unsorted (nodeSize kSize : Nat) (data : List Int) :
    (¬ List.Pairwise (· ≤ ·) data → cssNew nodeSize kSize data = .error .unsortedInput) ∧
    (List.Pairwise (· ≤ ·) data → cssNew nodeSize kSize data = .ok (cssCtor nodeSize kSize data)) := by
  constructor
  · intro hns
    have hb : isSortedB data = false := by
      rcases hb : isSortedB data with _ | _
      · rfl
      · exact absurd ((isSortedB_iff data).mp hb) hns
    unfold cssNew
    rw [hb]
    rfl
  · intro hs
    have hb : isSortedB data = true := (isSortedB_iff data).mpr hs
    unfold cssNew
    rw [hb]
    rfl

/-- Witness for C3: scenario `S2` (`[2,1,0]` is rejected) and a sorted input. -/
theorem c3_ctor_rejects_unsorted_witness :
    cssNew 4 2 [2, 1, 0] = .error .unsortedInput ∧
    cssNew 4 2 [0, 1, 2] = .ok (cssCtor 4 2 [0, 1, 2]) :=
  ⟨(c3_ctor_rejects_unsorted 4 2 [2, 1, 0]).1 (by decide),
   (c3_ctor_rejects_unsorted 4 2 [0, 1, 2]).2 (by decide)⟩

end CSS

namespace CSS

/-! ## Basic geometry lemmas -/

/-- The internal buffer has exactly `n_internal_nodes * slots_per_node` slots. -/
theorem treeList_length (s N : Nat) (L : List Int) :
    (treeList s N L).length = n_internal s N * s := by
  simp [treeList]

/-- When the data fits into one node, there is at most one leaf group. -/
theorem leafNodes_le_one {s N : Nat} (hs : 1 ≤ s) (h : N ≤ s) : leafNodes s N ≤ 1 := by
  have h2 : (N + s - 1) / s < 2 := (Nat.div_lt_iff_lt_mul (by omega)).mpr (by omega)
  unfold leafNodes
  omega

/-- With at most one leaf group the computed height is `0`. -/
theorem tree_height_eq_zero {s N : Nat} (h : leafNodes s N ≤ 1) : tree_height s N = 0 := by
  unfold tree_height
  rcases Nat.le_one_iff_eq_zero_or_eq_one.mp h with h1 | h1 <;> rw [h1] <;> rfl

/-- With at most one leaf group no internal node is materialised. -/
theorem n_internal_eq_zero {s N : Nat} (h : leafNodes s N ≤ 1) : n_internal s N = 0 := by
  unfold n_internal last_internal expp
  rw [tree_height_eq_zero h, pow_zero]
  simp

/-! ## C8: the single-node degenerate shape and the size accessors -/

/-- C8.  `size()` returns the number of leaves; `size_in_bytes()` is
`M·s·sizeof(K)`; and when `N ≤ s` the tree is built with no internal nodes:
`M = 0`, `T` empty, `size_in_bytes() = 0`, `height() = 0`, and every `find`
takes the empty-index fast path, a linear scan of the whole leaf sequence. -/
theorem c8_sizes_and_degenerate_shape (nodeSize kSize : Nat) (data : List Int)
    (hs : 1 ≤ slotsPer nodeSize kSize) :
    size (cssCtor nodeSize kSize data) = data.length ∧
    size_in_bytes (cssCtor nodeSize kSize data) =
      n_internal (slotsPer nodeSize kSize) data.length * slotsPer nodeSize kSize * kSize ∧
    (data.length ≤ slotsPer nodeSize kSize →
      (cssCtor nodeSize kSize data).n_internal_nodes = 0 ∧
      (cssCtor nodeSize kSize data).tree = [] ∧
      size_in_bytes (cssCtor nodeSize kSize data) = 0 ∧
      height (cssCtor nodeSize kSize data) = 0 ∧
      ∀ k, find (cssCtor nodeSize kSize data) k = find_in_leaves data 0 data.length k) := by
  refine ⟨rfl, ?_, ?_⟩
  · simp [size_in_bytes, cssCtor, treeList_length]
  · intro hN
    have hln := leafNodes_le_one hs hN
    have hM := n_internal_eq_zero hln
    have hh := tree_height_eq_zero hln
    refine ⟨?_, ?_, ?_, ?_, ?_⟩
    · simpa [cssCtor] using hM
    · simp [cssCtor, treeList, hM]
    · simp [size_in_bytes, cssCtor, treeList_length, hM]
    · simpa [height, cssCtor] using hh
    · intro k
      simp [find, findWith, cssCtor, hM]

/-- Witness for C8 on scenario `S1`: `CSSTree<32, int32_t>` over six keys. -/
theorem c8_sizes_and_degenerate_shape_witness :
    1 ≤ slotsPer 32 4 ∧
    (size (cssCtor 32 4 [-3, 2, 4, 11, 35, 60]) = 6 ∧
      size_in_bytes (cssCtor 32 4 [-3, 2, 4, 11, 35, 60]) =
        n_internal (slotsPer 32 4) 6 * slotsPer 32 4 * 4 ∧
      (6 ≤ slotsPer 32 4 →
        (cssCtor 32 4 [-3, 2, 4, 11, 35, 60]).n_internal_nodes = 0 ∧
        (cssCtor 32 4 [-3, 2, 4, 11, 35, 60]).tree = [] ∧
        size_in_bytes (cssCtor 32 4 [-3, 2, 4, 11, 35, 60]) = 0 ∧
        height (cssCtor 32 4 [-3, 2, 4, 11, 35, 60]) = 0 ∧
        ∀ k, find (cssCtor 32 4 [-3, 2, 4, 11, 35, 60]) k =
          find_in_leaves [-3, 2, 4, 11, 35, 60] 0 6 k)) :=
  ⟨by decide, c8_sizes_and_degenerate_shape 32 4 [-3, 2, 4, 11, 35, 60] (by decide)⟩

/-! ## C6: the geometry formulas -/

/-- `hIter` computes the least exponent at or above `acc` whose power reaches
`target`, provided the fuel allows reaching it. -/
theorem hIter_spec (b target : Nat) :
    ∀ fuel acc, (∀ j, j < acc → b ^ j < target) → target ≤ b ^ (acc + fuel) →
      target ≤ b ^ hIter b target fuel acc ∧
      ∀ j, target ≤ b ^ j → hIter b target fuel acc ≤ j := by
  intro fuel
  induction fuel with
  | zero =>
    intro acc hlt hle
    refine ⟨by simpa using hle, ?_⟩
    intro j hj
    by_contra hc
    push_neg at hc
    exact absurd hj (by have := hlt j hc; omega)
  | succ f ih =>
    intro acc hlt hle
    simp only [hIter]
    by_cases hcond : b ^ acc < target
    · rw [if_pos hcond]
      apply ih (acc + 1)
      · intro j hj
        rcases Nat.lt_succ_iff_lt_or_eq.mp hj with h | h
        · exact hlt j h
        · subst h; exact hcond
      · have harith : acc + 1 + f = acc + (f + 1) := by omega
        rw [harith]; exact hle
    · rw [if_neg hcond]
      push_neg at hcond
      refine ⟨hcond, ?_⟩
      intro j hj
      by_contra hc
      push_neg at hc
      exact absurd hj (by have := hlt j hc; omega)

/-- `tree_height` is the least `h` with `(s+1)^h ≥ leaf_nodes`. -/
theorem tree_height_spec (s N : Nat) (hs : 1 ≤ s) :
    leafNodes s N ≤ (s + 1) ^ tree_height s N ∧
    ∀ j, leafNodes s N ≤ (s + 1) ^ j → tree_height s N ≤ j := by
  have h2 : (2 : Nat) ≤ s + 1 := by omega
  apply hIter_spec (s + 1) (leafNodes s N) (leafNodes s N) 0
  · intro j hj; omega
  · calc leafNodes s N ≤ 2 ^ leafNodes s N := Nat.le_of_lt (Nat.lt_two_pow _)
      _ ≤ (s + 1) ^ leafNodes s N := Nat.pow_le_pow_left h2 _
      _ = (s + 1) ^ (0 + leafNodes s N) := by rw [Nat.zero_add]

end CSS

namespace CSS

/-- C6.  For `⌈N/s⌉ > 1`, the geometry computed at construction satisfies the
specification's formulas: the height is the least `h` with
`(s+1)^h ≥ ⌈N/s⌉`; with `E = (s+1)^h`, the missing-node count is
`D = ⌊(E − ⌈N/s⌉)/s⌋`, the internal-node count is `M = (E−1)/s − D` and the
half marker is `H = (E−1)/s`; and `height()` returns this `h`. -/
theorem c6_geometry (s N : Nat) (hs : 1 ≤ s) (_h2 : 2 ≤ leafNodes s N) :
    (leafNodes s N ≤ (s + 1) ^ tree_height s N ∧
      ∀ j, leafNodes s N ≤ (s + 1) ^ j → tree_height s N ≤ j) ∧
    last_internal s N = (expp s N - leafNodes s N) / s ∧
    n_internal s N = (expp s N - 1) / s - last_internal s N ∧
    half_marker s N = (expp s N - 1) / s ∧
    ∀ nodeSize kSize data, slotsPer nodeSize kSize = s → List.length data = N →
      height (cssCtor nodeSize kSize data) = tree_height s N := by
  refine ⟨tree_height_spec s N hs, rfl, rfl, rfl, ?_⟩
  intro ns ks data hsl hlen
  simp [height, cssCtor, hsl, hlen]

/-- Witness for C6 at `s = 1`, `N = 17` (scenario `S4`, a binary tree of height 5). -/
theorem c6_geometry_witness :
    (1 : Nat) ≤ 1 ∧ 2 ≤ leafNodes 1 17 ∧
    ((leafNodes 1 17 ≤ 2 ^ tree_height 1 17 ∧
        ∀ j, leafNodes 1 17 ≤ 2 ^ j → tree_height 1 17 ≤ j) ∧
      last_internal 1 17 = (expp 1 17 - leafNodes 1 17) / 1 ∧
      n_internal 1 17 = (expp 1 17 - 1) / 1 - last_internal 1 17 ∧
      half_marker 1 17 = (expp 1 17 - 1) / 1 ∧
      ∀ nodeSize kSize data, slotsPer nodeSize kSize = 1 → List.length data = 17 →
        height (cssCtor nodeSize kSize data) = tree_height 1 17) :=
  ⟨Nat.le_refl 1, by decide, c6_geometry 1 17 (by decide) (by decide)⟩

/-- C7 (refuting the in-bounds part).  On the repository's own test tree
`CSSTree<2, int16_t>` over `1..17`, searching for `42` resolves the leaf
window `[16, 17)`; the scan of `find_in_leaves` exhausts it (`lo = hi`), and
the subsequent `key == *lo` dereferences position `17 = leaves.size()`, one
past the end of both the slice and the vector, exactly the overrun the
specification's §9 note describes.  (The returned *value* is still the
past-the-end sentinel, because at `lo = end()` both branches of the final
conditional return `end()`.) -/
theorem c7_find_in_leaves_overruns_slice :
    find (cssCtor 2 2 dataA) 42 = none ∧
    findOverrun (cssCtor 2 2 dataA) 42 = true ∧
    (leafWindow (cssCtor 2 2 dataA).slots_per_node (cssCtor 2 2 dataA).leaves.length
        (cssCtor 2 2 dataA).half_marker
        (findChild (256 < (cssCtor 2 2 dataA).nodeSize) (cssCtor 2 2 dataA).tree
          (cssCtor 2 2 dataA).slots_per_node (cssCtor 2 2 dataA).n_internal_nodes 42)).2 =
      (cssCtor 2 2 dataA).leaves.length := by decide

set_option maxRecDepth 400000 in
/-- C1 (refutation).  On `CSSTree<352, K>` with `sizeof(K) = 16` (fanout
`s = 22`, binary-search regime since `NodeSize > 256`) built from the sorted
keys `0..506`, the key `470` is present, yet `find 470` returns the
past-the-end sentinel: `std::lower_bound` is run over `s + 1` slots, one slot
into the next node, where the buffer is not sorted (slot 22 holds the small
key 21), and the misleading comparison steers the descent into the subtree
holding `485..506`.  The linear-scan strategy on the same tree finds the key. -/
theorem c1_binary_search_misses_present_key :
    isSortedB dataB = true ∧ (470 : Int) ∈ dataB ∧
    256 < (cssCtor 352 16 dataB).nodeSize ∧
    find (cssCtor 352 16 dataB) 470 = none ∧
    findWith false (cssCtor 352 16 dataB) 470 = some 470 := by decide

/-- C4 (counterexample to the claim as stated).  In `CSSTree<4, int16_t>` over
`0..6` (`s = 2`, `M = 2`, `H = 4`, `last_chunk = 3`), slot `T[0] = 2` was set
by the builder's special-case branch.  The rightmost descent from its child 1
reaches leaf 6, whose leaf slice per the search mapping is `[4, 6)`; so
`T[0]` is *not* the largest key of that slice (`5`), and the key `4`, which
lies in the slice of leaf 6 — a descendant of the left child of `T[0]` — 
exceeds `T[0]`.  Hence neither the "largest key of the reached leaf slice"
reading nor the "all keys reachable under the left child are `≤ T[i]`"
directory property holds of the code. -/
theorem c4_counterexample :
    ¬ (∀ i, i < (cssCtor 4 2 dataC).n_internal_nodes * (cssCtor 4 2 dataC).slots_per_node →
        ((cssCtor 4 2 dataC).tree.getD i 0 =
          dataC.getD ((leafWindow 2 7 4 (descRight 2 7 (slotChild 2 i))).2 - 1) 0 ∧
        (∀ d p, isDescB 2 3 d (slotChild 2 i) = true →
          (leafWindow 2 7 4 d).1 ≤ p → p < (leafWindow 2 7 4 d).2 →
          dataC.getD p 0 ≤ (cssCtor 4 2 dataC).tree.getD i 0) ∧
        (∀ d p, isDescB 2 3 d (slotChild 2 i + 1) = true →
          (leafWindow 2 7 4 d).1 ≤ p → p < (leafWindow 2 7 4 d).2 →
          (cssCtor 4 2 dataC).tree.getD i 0 < dataC.getD p 0))) := by
  intro h
  obtain ⟨_h1, h2, _h3⟩ := h 0 (by decide)
  have h4 := h2 6 4 (by decide) (by decide) (by decide)
  revert h4
  decide

/-- C5 (counterexample to the claim as stated).  On `CSSTree<264, int64_t>`
(`s = 33`, binary regime) over `0..39` there is a single internal node
(`M = 1`), so the binary search window is clipped to `s` slots; for the key
`100`, larger than every slot, the clamp `if (pos == hi) --pos` yields
`lo = 32`, while the linear scan yields `lo = s = 33` (the count of slots
less than the key, capped at `s`) — the two strategies disagree, and so do
the next child indices they produce. -/
theorem c5_counterexample :
    256 < (cssCtor 264 8 dataD).nodeSize ∧
    binLo (cssCtor 264 8 dataD).tree (cssCtor 264 8 dataD).slots_per_node
        (cssCtor 264 8 dataD).n_internal_nodes 0 100 = 32 ∧
    scanLo (cssCtor 264 8 dataD).tree (cssCtor 264 8 dataD).slots_per_node 0 100 = 33 ∧
    binLo (cssCtor 264 8 dataD).tree (cssCtor 264 8 dataD).slots_per_node
        (cssCtor 264 8 dataD).n_internal_nodes 0 100 ≠
      scanLo (cssCtor 264 8 dataD).tree (cssCtor 264 8 dataD).slots_per_node 0 100 := by
  decide

end CSS

namespace CSS

/-! ## Arithmetic of the geometry -/

/-- The level-start markers: `(s+1)^j = s * levH j + 1` and
`levH (j+1) = levH j * (s+1) + 1`. -/
theorem levH_spec (s : Nat) (hs : 1 ≤ s) :
    ∀ j, (s + 1) ^ j = s * levH s j + 1 ∧ levH s (j + 1) = levH s j * (s + 1) + 1 := by
  intro j
  induction j with
  | zero =>
    constructor
    · simp [levH]
    · simp [levH, pow_one, Nat.add_sub_cancel, Nat.div_self (by omega : 0 < s)]
  | succ j ih =>
    obtain ⟨ihp, ihs⟩ := ih
    have hp1 : (s + 1) ^ (j + 1) = s * levH s (j + 1) + 1 := by
      rw [ihs, pow_succ, ihp]; ring
    refine ⟨hp1, ?_⟩
    show ((s + 1) ^ (j + 2) - 1) / s = levH s (j + 1) * (s + 1) + 1
    have hkey : (s + 1) ^ (j + 2) = s * (levH s (j + 1) * (s + 1) + 1) + 1 := by
      rw [pow_succ, hp1]; ring
    rw [hkey, Nat.add_sub_cancel, Nat.mul_div_cancel_left _ (by omega : 0 < s)]

/-- `half_marker` is the start of the leaf level of the conceptual full tree. -/
theorem half_marker_eq_levH (s N : Nat) : half_marker s N = levH s (tree_height s N) := rfl

/-- `s * half_marker = expp - 1`. -/
theorem half_marker_mul (s N : Nat) (hs : 1 ≤ s) :
    s * half_marker s N = expp s N - 1 := by
  have h := (levH_spec s hs (tree_height s N)).1
  rw [half_marker_eq_levH]
  unfold expp
  omega

/-- With at least two leaf groups the height is positive and
`(s+1)^(h-1) < leaf_nodes ≤ (s+1)^h`. -/
theorem tree_height_pos (s N : Nat) (hs : 1 ≤ s) (h2 : 2 ≤ leafNodes s N) :
    1 ≤ tree_height s N ∧
    leafNodes s N ≤ expp s N ∧
    (s + 1) ^ (tree_height s N - 1) < leafNodes s N := by
  obtain ⟨hle, hmin⟩ := tree_height_spec s N hs
  have hpos : 1 ≤ tree_height s N := by
    by_contra hc
    push_neg at hc
    have h0 : tree_height s N = 0 := by omega
    rw [h0, pow_zero] at hle
    omega
  refine ⟨hpos, hle, ?_⟩
  by_contra hc
  push_neg at hc
  have := hmin _ hc
  omega

/-- `N` lies strictly between `s*(leaf_nodes - 1)` and `s*leaf_nodes`. -/
theorem leafNodes_bounds (s N : Nat) (hs : 1 ≤ s) (h2 : 2 ≤ leafNodes s N) :
    (leafNodes s N - 1) * s < N ∧ N ≤ leafNodes s N * s := by
  have hd := Nat.div_add_mod (N + s - 1) s
  have hm := Nat.mod_lt (N + s - 1) (show 0 < s by omega)
  have hln : leafNodes s N = (N + s - 1) / s := rfl
  have hmul1 : s * ((N + s - 1) / s) = ((N + s - 1) / s) * s := by ring
  have hmul2 : ((N + s - 1) / s - 1) * s + s = ((N + s - 1) / s) * s := by
    have h1 : 1 ≤ (N + s - 1) / s := by rw [← hln]; omega
    have h2' : ((N + s - 1) / s - 1 + 1) = (N + s - 1) / s := by omega
    calc ((N + s - 1) / s - 1) * s + s = ((N + s - 1) / s - 1 + 1) * s := by ring
      _ = ((N + s - 1) / s) * s := by rw [h2']
  rw [hln]
  omega

/-- `D*s ≤ E - leaf_nodes` (floor division). -/
theorem last_internal_mul_le (s N : Nat) :
    last_internal s N * s ≤ expp s N - leafNodes s N :=
  Nat.div_mul_le_self _ _

/-- `E ≤ (leaf_nodes - 1) * (s + 1)` (minimality of the height). -/
theorem expp_upper (s N : Nat) (hs : 1 ≤ s) (h2 : 2 ≤ leafNodes s N) :
    expp s N ≤ (leafNodes s N - 1) * (s + 1) := by
  obtain ⟨hpos, _, hlt⟩ := tree_height_pos s N hs h2
  have hsucc : expp s N = (s + 1) ^ (tree_height s N - 1) * (s + 1) := by
    unfold expp
    rw [← pow_succ]
    congr 1
    omega
  rw [hsucc]
  exact Nat.mul_le_mul_right _ (by omega)

/-- The key bound: `D*s + 2 ≤ N`, i.e. `last_chunk ≥ 2`. -/
theorem last_internal_bound (s N : Nat) (hs : 1 ≤ s) (h2 : 2 ≤ leafNodes s N) :
    last_internal s N * s + 2 ≤ N := by
  have hDs := last_internal_mul_le s N
  have hE := expp_upper s N hs h2
  have hexp : (leafNodes s N - 1) * (s + 1) = (leafNodes s N - 1) * s + (leafNodes s N - 1) := by
    ring
  have hN := leafNodes_bounds s N hs h2
  have hEln := (tree_height_pos s N hs h2).2.1
  omega

/-- `last_chunk ≥ 2`. -/
theorem last_chunk_ge_two (s N : Nat) (hs : 1 ≤ s) (h2 : 2 ≤ leafNodes s N) :
    2 ≤ last_chunk s N := by
  have := last_internal_bound s N hs h2
  unfold last_chunk
  omega

/-- `M + D = H` (`D ≤ H`, so the `size_t` subtraction does not wrap). -/
theorem n_internal_add (s N : Nat) (hs : 1 ≤ s) (h2 : 2 ≤ leafNodes s N) :
    n_internal s N + last_internal s N = half_marker s N := by
  have hEln := (tree_height_pos s N hs h2).2.1
  have hDH : last_internal s N ≤ half_marker s N :=
    Nat.div_le_div_right (by omega)
  unfold n_internal half_marker at *
  omega

/-- `levH (h-1) < M ≤ H`: the internal region covers all levels above the last
one and a prefix of the last internal level. -/
theorem n_internal_window (s N : Nat) (hs : 1 ≤ s) (h2 : 2 ≤ leafNodes s N) :
    levH s (tree_height s N - 1) < n_internal s N ∧
    n_internal s N ≤ half_marker s N ∧ 1 ≤ n_internal s N := by
  obtain ⟨hpos, hEln, hlt⟩ := tree_height_pos s N hs h2
  have hMD := n_internal_add s N hs h2
  -- D < (s+1)^(h-1)
  have hDs := last_internal_mul_le s N
  have hpow : (s + 1) ^ (tree_height s N - 1) = s * levH s (tree_height s N - 1) + 1 :=
    (levH_spec s hs _).1
  have hEeq : expp s N = (s + 1) ^ (tree_height s N - 1) * (s + 1) := by
    unfold expp
    rw [← pow_succ]
    congr 1
    omega
  have hD : last_internal s N < (s + 1) ^ (tree_height s N - 1) := by
    have hmul : last_internal s N * s < (s + 1) ^ (tree_height s N - 1) * s := by
      have hEsub : expp s N - (s + 1) ^ (tree_height s N - 1) =
          (s + 1) ^ (tree_height s N - 1) * s := by
        rw [hEeq]; ring_nf; omega
      omega
    exact Nat.lt_of_mul_lt_mul_right hmul
  -- H = levH(h-1) * (s+1) + 1
  have hH : half_marker s N = levH s (tree_height s N - 1) * (s + 1) + 1 := by
    rw [half_marker_eq_levH]
    have := (levH_spec s hs (tree_height s N - 1)).2
    rw [show tree_height s N - 1 + 1 = tree_height s N from by omega] at this
    exact this
  have hexp1 : levH s (tree_height s N - 1) * (s + 1) =
      levH s (tree_height s N - 1) * s + levH s (tree_height s N - 1) := by ring
  have hor : s * levH s (tree_height s N - 1) = levH s (tree_height s N - 1) * s := by ring
  omega

/-- `M*(s+1) ≥ H`: the last child of the last internal node reaches the leaf
level of the full tree. -/
theorem n_internal_succ_mul (s N : Nat) (hs : 1 ≤ s) (h2 : 2 ≤ leafNodes s N) :
    half_marker s N ≤ n_internal s N * (s + 1) := by
  obtain ⟨hlvl, hMH, hM1⟩ := n_internal_window s N hs h2
  have hpos := (tree_height_pos s N hs h2).1
  have hH : half_marker s N = levH s (tree_height s N - 1) * (s + 1) + 1 := by
    rw [half_marker_eq_levH]
    have := (levH_spec s hs (tree_height s N - 1)).2
    rw [show tree_height s N - 1 + 1 = tree_height s N from by omega] at this
    exact this
  have hmul : (levH s (tree_height s N - 1) + 1) * (s + 1) ≤ n_internal s N * (s + 1) :=
    Nat.mul_le_mul_right _ (by omega)
  have hexp : (levH s (tree_height s N - 1) + 1) * (s + 1) =
      levH s (tree_height s N - 1) * (s + 1) + (s + 1) := by ring
  omega

/-- `M*s ≥ leaf_nodes - 1`: there are enough slots to separate the leaf groups. -/
theorem n_internal_mul_ge (s N : Nat) (hs : 1 ≤ s) (h2 : 2 ≤ leafNodes s N) :
    leafNodes s N - 1 ≤ n_internal s N * s := by
  have hMD := n_internal_add s N hs h2
  have hHs := half_marker_mul s N hs
  have hDs := last_internal_mul_le s N
  have hEln := (tree_height_pos s N hs h2).2.1
  have hsub : n_internal s N * s + last_internal s N * s = half_marker s N * s := by
    have : (n_internal s N + last_internal s N) * s = half_marker s N * s := by rw [hMD]
    calc n_internal s N * s + last_internal s N * s
        = (n_internal s N + last_internal s N) * s := by ring
      _ = half_marker s N * s := this
  have hor : s * half_marker s N = half_marker s N * s := by ring
  omega

/-- The rightmost leaf under the last internal node covers the clamp boundary:
`last_chunk ≤ (M*(s+1) - H)*s + s`. -/
theorem clamp_cover (s N : Nat) (hs : 1 ≤ s) (h2 : 2 ≤ leafNodes s N) :
    last_chunk s N ≤ (n_internal s N * (s + 1) - half_marker s N) * s + s := by
  have hMD := n_internal_add s N hs h2
  have hMsge := n_internal_mul_ge s N hs h2
  have hNle := (leafNodes_bounds s N hs h2).2
  have hq : n_internal s N * (s + 1) - half_marker s N =
      n_internal s N * s - last_internal s N := by
    have hexp : n_internal s N * (s + 1) = n_internal s N * s + n_internal s N := by ring
    omega
  rw [hq]
  have hDle : last_internal s N ≤ n_internal s N * s := by
    -- D < (s+1)^(h-1) ≤ leaf_nodes - 1 ≤ M*s
    obtain ⟨_, _, hlt⟩ := tree_height_pos s N hs h2
    have hD : last_internal s N < (s + 1) ^ (tree_height s N - 1) := by
      have hEeq : expp s N = (s + 1) ^ (tree_height s N - 1) * (s + 1) := by
        unfold expp
        rw [← pow_succ]
        congr 1
        omega
      have hEsub : expp s N - (s + 1) ^ (tree_height s N - 1) =
          (s + 1) ^ (tree_height s N - 1) * s := by
        rw [hEeq]; ring_nf; omega
      have hDs := last_internal_mul_le s N
      have hEln := (tree_height_pos s N hs h2).2.1
      have hmul : last_internal s N * s < (s + 1) ^ (tree_height s N - 1) * s := by omega
      exact Nat.lt_of_mul_lt_mul_right hmul
    omega
  have hsub : (n_internal s N * s - last_internal s N) * s =
      n_internal s N * s * s - last_internal s N * s := Nat.sub_mul _ _ _
  have hln : (leafNodes s N - 1) * s + s = leafNodes s N * s := by
    have h1 : leafNodes s N - 1 + 1 = leafNodes s N := by omega
    calc (leafNodes s N - 1) * s + s = (leafNodes s N - 1 + 1) * s := by ring
      _ = leafNodes s N * s := by rw [h1]
  have hmul2 : (leafNodes s N - 1) * s ≤ n_internal s N * s * s :=
    Nat.mul_le_mul_right _ hMsge
  unfold last_chunk
  omega

end CSS

namespace CSS

/-! ## The descent loops -/

/-- Both descent steps strictly increase the child index. -/
theorem rstep_gt (s c : Nat) : c < rstep s c := by
  have h : c + 1 ≤ (c + 1) * (s + 1) := Nat.le_mul_of_pos_right _ (by omega)
  unfold rstep
  omega

/-- The leftmost step also strictly increases the child index. -/
theorem lstep_gt (s c : Nat) : c < lstep s c := by
  have h : c * 1 ≤ c * (s + 1) := Nat.mul_le_mul_left _ (by omega)
  unfold lstep
  omega

/-- A child already outside the internal region is a fixed point. -/
theorem descRF_of_ge (M s : Nat) : ∀ fuel c, M ≤ c → descRF M s fuel c = c := by
  intro fuel
  induction fuel with
  | zero => intro c _; rfl
  | succ f ih => intro c hc; simp only [descRF]; rw [if_neg (by omega)]

/-- Fuel irrelevance: any two sufficient fuels agree. -/
theorem descRF_congr (M s : Nat) :
    ∀ f g c, M ≤ c + f → M ≤ c + g → descRF M s f c = descRF M s g c := by
  intro f
  induction f with
  | zero =>
    intro g c hf hg
    have hc : M ≤ c := by omega
    rw [descRF_of_ge M s 0 c hc, descRF_of_ge M s g c hc]
  | succ f ih =>
    intro g c hf hg
    by_cases hc : c < M
    · obtain ⟨g', rfl⟩ : ∃ g', g = g' + 1 := ⟨g - 1, by omega⟩
      simp only [descRF]
      rw [if_pos hc, if_pos hc]
      have hr := rstep_gt s c
      exact ih g' (rstep s c) (by omega) (by omega)
    · simp only [descRF]
      rw [if_neg hc, descRF_of_ge M s g c (by omega)]

/-- The result of the rightmost descent is outside the internal region. -/
theorem descRF_ge (M s : Nat) : ∀ fuel c, M ≤ c + fuel → M ≤ descRF M s fuel c := by
  intro fuel
  induction fuel with
  | zero => intro c h; simpa [descRF] using (by omega : M ≤ c)
  | succ f ih =>
    intro c h
    simp only [descRF]
    by_cases hc : c < M
    · rw [if_pos hc]
      have hr := rstep_gt s c
      exact ih _ (by omega)
    · rw [if_neg hc]; omega

/-- The descent stays below `M*(s+1)`. -/
theorem descRF_le (M s : Nat) :
    ∀ fuel c, c ≤ M * (s + 1) → descRF M s fuel c ≤ M * (s + 1) := by
  intro fuel
  induction fuel with
  | zero => intro c h; exact h
  | succ f ih =>
    intro c h
    simp only [descRF]
    by_cases hc : c < M
    · rw [if_pos hc]
      refine ih _ ?_
      unfold rstep
      exact Nat.mul_le_mul_right _ (by omega)
    · rw [if_neg hc]; exact h

/-- `descRight` on a child at or past the internal region. -/
theorem descRight_of_ge (s N c : Nat) (hc : n_internal s N ≤ c) : descRight s N c = c :=
  descRF_of_ge _ _ _ _ hc

/-- One unfolding of the rightmost-descent loop. -/
theorem descRight_step (s N c : Nat) (hc : c < n_internal s N) :
    descRight s N c = descRight s N (rstep s c) := by
  unfold descRight
  obtain ⟨M', hM'⟩ : ∃ M', n_internal s N = M' + 1 := ⟨n_internal s N - 1, by omega⟩
  rw [hM']
  simp only [descRF]
  rw [if_pos (by omega)]
  have hr := rstep_gt s c
  exact descRF_congr (M' + 1) s M' (M' + 1) (rstep s c) (by omega) (by omega)

/-- The rightmost descent always ends outside the internal region. -/
theorem descRight_ge (s N c : Nat) : n_internal s N ≤ descRight s N c :=
  descRF_ge _ _ _ _ (by omega)

/-- The rightmost descent stays below `M*(s+1)`. -/
theorem descRight_le (s N c : Nat) (hc : c ≤ n_internal s N * (s + 1)) :
    descRight s N c ≤ n_internal s N * (s + 1) :=
  descRF_le _ _ _ _ hc

/-- A child already outside the internal region is a fixed point (left). -/
theorem descLF_of_ge (M s : Nat) : ∀ fuel c, M ≤ c → descLF M s fuel c = c := by
  intro fuel
  induction fuel with
  | zero => intro c _; rfl
  | succ f ih => intro c hc; simp only [descLF]; rw [if_neg (by omega)]

/-- Fuel irrelevance for the leftmost descent. -/
theorem descLF_congr (M s : Nat) :
    ∀ f g c, M ≤ c + f → M ≤ c + g → descLF M s f c = descLF M s g c := by
  intro f
  induction f with
  | zero =>
    intro g c hf hg
    have hc : M ≤ c := by omega
    rw [descLF_of_ge M s 0 c hc, descLF_of_ge M s g c hc]
  | succ f ih =>
    intro g c hf hg
    by_cases hc : c < M
    · obtain ⟨g', rfl⟩ : ∃ g', g = g' + 1 := ⟨g - 1, by omega⟩
      simp only [descLF]
      rw [if_pos hc, if_pos hc]
      have hr := lstep_gt s c
      exact ih g' (lstep s c) (by omega) (by omega)
    · simp only [descLF]
      rw [if_neg hc, descLF_of_ge M s g c (by omega)]

/-- `descLeft` on a child at or past the internal region. -/
theorem descLeft_of_ge (s N c : Nat) (hc : n_internal s N ≤ c) : descLeft s N c = c :=
  descLF_of_ge _ _ _ _ hc

/-- One unfolding of the leftmost descent. -/
theorem descLeft_step (s N c : Nat) (hc : c < n_internal s N) :
    descLeft s N c = descLeft s N (lstep s c) := by
  unfold descLeft
  obtain ⟨M', hM'⟩ : ∃ M', n_internal s N = M' + 1 := ⟨n_internal s N - 1, by omega⟩
  rw [hM']
  simp only [descLF]
  rw [if_pos (by omega)]
  have hr := lstep_gt s c
  exact descLF_congr (M' + 1) s M' (M' + 1) (lstep s c) (by omega) (by omega)

/-! ## Adjacency of subtree coverage -/

/-- Leaf-level adjacency: for two consecutive leaves of the pruned tree that do
not straddle the half marker, the effective slices are adjacent. -/
theorem adj_base (s N : Nat) (hs : 1 ≤ s) (h2 : 2 ≤ leafNodes s N) (c : Nat)
    (hc : n_internal s N ≤ c) (hside : c + 1 ≠ half_marker s N) :
    effEnd s N c = effStart s N (c + 1) := by
  have hMD := n_internal_add s N hs h2
  have hDs := last_internal_bound s N hs h2
  by_cases h1 : c + 1 < half_marker s N
  · have hcH : c < half_marker s N := by omega
    simp only [effEnd, effStart]
    rw [if_pos hcH, if_pos h1]
    have hexp : (half_marker s N - c) * s = (half_marker s N - (c + 1)) * s + s := by
      have hHc : half_marker s N - c = (half_marker s N - (c + 1)) + 1 := by omega
      rw [hHc]; ring
    have hle : (half_marker s N - c) * s ≤ last_internal s N * s :=
      Nat.mul_le_mul_right _ (by omega)
    omega
  · have hcH : half_marker s N ≤ c := by omega
    simp only [effEnd, effStart]
    rw [if_neg (by omega), if_neg (by omega)]
    have hexp : (c + 1 - half_marker s N) * s = (c - half_marker s N) * s + s := by
      have h3 : c + 1 - half_marker s N = (c - half_marker s N) + 1 := by omega
      rw [h3]; ring
    omega

/-- Adjacency of subtree coverage: for every child index `c ≥ 1` such that
`c + 1` is not the first node of a level of the full tree (in particular for
any two consecutive children of one internal node), the coverage of the
subtree rooted at `c` ends exactly where the coverage of the subtree rooted at
`c + 1` begins. -/
theorem adj_aux (s N : Nat) (hs : 1 ≤ s) (h2 : 2 ≤ leafNodes s N) :
    ∀ fuel c, n_internal s N ≤ c + fuel → 1 ≤ c → (∀ j, c + 1 ≠ levH s j) →
      endB s N c = startB s N (c + 1) := by
  intro fuel
  induction fuel with
  | zero =>
    intro c hf h1 hside
    have hc : n_internal s N ≤ c := by omega
    unfold endB startB
    rw [descRight_of_ge s N c hc, descLeft_of_ge s N (c + 1) (by omega)]
    apply adj_base s N hs h2 c hc
    rw [half_marker_eq_levH]
    exact hside _
  | succ f ih =>
    intro c hf h1 hside
    by_cases hcM : c < n_internal s N
    · have he : endB s N c = endB s N (rstep s c) := by
        unfold endB
        rw [descRight_step s N c hcM]
      by_cases hc1 : c + 1 < n_internal s N
      · have hst : startB s N (c + 1) = startB s N (lstep s (c + 1)) := by
          unfold startB
          rw [descLeft_step s N (c + 1) hc1]
        have hlr : lstep s (c + 1) = rstep s c + 1 := by
          unfold lstep rstep; ring
        rw [he, hst, hlr]
        have hr := rstep_gt s c
        apply ih
        · omega
        · omega
        · intro j hj
          rcases j with _ | j'
          · have : levH s 0 = 0 := by simp [levH]
            omega
          · have hLs := (levH_spec s hs j').2
            rw [hLs] at hj
            have hmul : (c + 1) * (s + 1) = levH s j' * (s + 1) := by
              unfold rstep at hj
              omega
            exact hside j' (Nat.eq_of_mul_eq_mul_right (by omega) hmul)
      · have hceq : c + 1 = n_internal s N := by omega
        have hst : startB s N (c + 1) = effStart s N (n_internal s N) := by
          unfold startB
          rw [hceq, descLeft_of_ge s N _ (Nat.le_refl _)]
        have hrs : rstep s c = n_internal s N * (s + 1) := by
          unfold rstep; rw [hceq]
        have hMs1 : n_internal s N ≤ n_internal s N * (s + 1) :=
          Nat.le_mul_of_pos_right _ (by omega)
        have hend : endB s N (rstep s c) = effEnd s N (n_internal s N * (s + 1)) := by
          unfold endB
          rw [hrs, descRight_of_ge s N _ hMs1]
        rw [he, hend, hst]
        have hHle := n_internal_succ_mul s N hs h2
        have hcover := clamp_cover s N hs h2
        have hMD := n_internal_add s N hs h2
        have hMH : n_internal s N < half_marker s N := by
          have hne : n_internal s N ≠ half_marker s N := by
            intro hx
            exact hside (tree_height s N)
              (by rw [hceq, hx, half_marker_eq_levH])
          have := (n_internal_window s N hs h2).2.1
          omega
        simp only [effEnd, effStart]
        rw [if_neg (by omega : ¬ n_internal s N * (s + 1) < half_marker s N), if_pos hMH]
        have hHM : half_marker s N - n_internal s N = last_internal s N := by omega
        rw [hHM, Nat.min_eq_right hcover]
        rfl
    · have hc : n_internal s N ≤ c := by omega
      unfold endB startB
      rw [descRight_of_ge s N c hc, descLeft_of_ge s N (c + 1) (by omega)]
      apply adj_base s N hs h2 c hc
      rw [half_marker_eq_levH]
      exact hside _

/-- Adjacency, packaged. -/
theorem adjacent (s N : Nat) (hs : 1 ≤ s) (h2 : 2 ≤ leafNodes s N) (c : Nat)
    (h1 : 1 ≤ c) (hside : ∀ j, c + 1 ≠ levH s j) :
    endB s N c = startB s N (c + 1) :=
  adj_aux s N hs h2 (n_internal s N) c (by omega) h1 hside

end CSS

namespace CSS

/-! ## Bounds of the coverage boundaries and the builder characterisation -/

/-- Effective slice boundaries of a leaf are positive and at most `N`. -/
theorem effEnd_bounds (s N : Nat) (hs : 1 ≤ s) (h2 : 2 ≤ leafNodes s N) (c : Nat)
    (hc : n_internal s N ≤ c) : 1 ≤ effEnd s N c ∧ effEnd s N c ≤ N := by
  have hMD := n_internal_add s N hs h2
  have hDs := last_internal_bound s N hs h2
  simp only [effEnd]
  by_cases hcH : c < half_marker s N
  · rw [if_pos hcH]
    have h1 : 1 * s ≤ (half_marker s N - c) * s := Nat.mul_le_mul_right _ (by omega)
    have h2' : (half_marker s N - c) * s ≤ last_internal s N * s :=
      Nat.mul_le_mul_right _ (by omega)
    omega
  · rw [if_neg hcH]
    unfold last_chunk
    omega

/-- The subtree-coverage end is positive and at most `N`, for every child. -/
theorem endB_bounds (s N : Nat) (hs : 1 ≤ s) (h2 : 2 ≤ leafNodes s N) (c : Nat) :
    1 ≤ endB s N c ∧ endB s N c ≤ N := by
  unfold endB
  exact effEnd_bounds s N hs h2 _ (descRight_ge s N c)

/-- Unfolding of `slotVal` (the builder's three branches, lets expanded). -/
theorem slotVal_def (s N : Nat) (L : List Int) (i : Nat) :
    slotVal s N L i =
      (if ((descRight s N (slotChild s i) : Int) - half_marker s N) * s < 0 then
        L.getD ((((descRight s N (slotChild s i) : Int) - half_marker s N) * s) + N + s - 1).toNat 0
      else if ((descRight s N (slotChild s i) : Int) - half_marker s N) * s + s - 1 <
          (N : Int) - last_internal s N * s then
        L.getD ((((descRight s N (slotChild s i) : Int) - half_marker s N) * s) + s - 1).toNat 0
      else
        L.getD (last_chunk s N - 1) 0) := rfl

/-- The builder characterisation: every slot holds
`L[endB (slotChild i) - 1]`, the last element of the effective coverage of the
subtree the slot summarises. -/
theorem slotVal_eq (s N : Nat) (L : List Int) (hs : 1 ≤ s) (h2 : 2 ≤ leafNodes s N)
    (i : Nat) : slotVal s N L i = L.getD (endB s N (slotChild s i) - 1) 0 := by
  rw [slotVal_def]
  unfold endB
  generalize hgc : descRight s N (slotChild s i) = c
  have hcM : n_internal s N ≤ c := hgc ▸ descRight_ge s N _
  have hMD := n_internal_add s N hs h2
  have hDs := last_internal_bound s N hs h2
  have hDcast : ((last_internal s N : Int) * s) = ((last_internal s N * s : Nat) : Int) := by
    push_cast; ring
  have hlc : last_chunk s N = N - last_internal s N * s := rfl
  by_cases hcH : c < half_marker s N
  · have hneg : ((c : Int) - half_marker s N) * s < 0 := by
      apply mul_neg_of_neg_of_pos
      · have : (c : Int) < half_marker s N := by exact_mod_cast hcH
        omega
      · exact_mod_cast (by omega : 0 < s)
    rw [if_pos hneg]
    have hXle : (half_marker s N - c) * s ≤ last_internal s N * s :=
      Nat.mul_le_mul_right _ (by omega)
    have hprod : ((c : Int) - half_marker s N) * s =
        -(((half_marker s N - c) * s : Nat) : Int) := by
      have h1 : ((half_marker s N - c : Nat) : Int) = (half_marker s N : Int) - c := by
        rw [Nat.cast_sub (Nat.le_of_lt hcH)]
      calc ((c : Int) - half_marker s N) * s
          = -(((half_marker s N : Int) - c) * s) := by ring
        _ = -((((half_marker s N - c : Nat) : Int)) * s) := by rw [h1]
        _ = -(((half_marker s N - c) * s : Nat) : Int) := by push_cast; ring
    have hcast : ((c : Int) - half_marker s N) * s + N + s - 1 =
        ((N + s - 1 - (half_marker s N - c) * s : Nat) : Int) := by
      rw [hprod]
      omega
    rw [hcast, Int.toNat_natCast]
    simp only [effEnd]
    rw [if_pos hcH]
    congr 1
    omega
  · push_neg at hcH
    have hge : (0 : Int) ≤ ((c : Int) - half_marker s N) * s := by
      apply mul_nonneg
      · have : (half_marker s N : Int) ≤ c := by exact_mod_cast hcH
        omega
      · exact_mod_cast (Nat.zero_le s)
    rw [if_neg (not_lt.mpr hge)]
    have hprod : ((c : Int) - half_marker s N) * s =
        (((c - half_marker s N) * s : Nat) : Int) := by
      have h1 : ((c - half_marker s N : Nat) : Int) = (c : Int) - half_marker s N := by
        rw [Nat.cast_sub hcH]
      calc ((c : Int) - half_marker s N) * s
          = (((c - half_marker s N : Nat) : Int)) * s := by rw [h1]
        _ = (((c - half_marker s N) * s : Nat) : Int) := by push_cast; ring
    by_cases hin : (c - half_marker s N) * s + s - 1 < last_chunk s N
    · have hg : ((c : Int) - half_marker s N) * s + s - 1 <
          (N : Int) - last_internal s N * s := by
        rw [hprod, hDcast]
        omega
      rw [if_pos hg]
      simp only [effEnd]
      rw [if_neg (not_lt.mpr hcH)]
      rw [Nat.min_eq_left (by omega)]
      congr 1
      rw [hprod]
      omega
    · have hg : ¬ (((c : Int) - half_marker s N) * s + s - 1 <
          (N : Int) - last_internal s N * s) := by
        rw [hprod, hDcast]
        omega
      rw [if_neg hg]
      simp only [effEnd]
      rw [if_neg (not_lt.mpr hcH)]
      rw [Nat.min_eq_right (by omega)]

/-- Reading a built slot. -/
theorem treeList_getD (s N : Nat) (L : List Int) (i : Nat) (hi : i < n_internal s N * s) :
    (treeList s N L).getD i 0 = slotVal s N L i := by
  unfold treeList
  rw [List.getD_eq_get?, List.get?_map, List.get?_range hi]
  rfl

/-- Monotone access into a sorted list. -/
theorem sorted_getD_mono {L : List Int} (hsort : List.Pairwise (· ≤ ·) L) {p q : Nat}
    (hpq : p ≤ q) (hq : q < L.length) : L.getD p 0 ≤ L.getD q 0 := by
  have hp : p < L.length := by omega
  rw [List.getD_eq_get L 0 hp, List.getD_eq_get L 0 hq]
  rcases Nat.eq_or_lt_of_le hpq with h | h
  · subst h
    exact le_of_eq rfl
  · exact List.pairwise_iff_get.mp hsort ⟨p, hp⟩ ⟨q, hq⟩ h

/-- A slot's right sibling child is never the first node of a level. -/
theorem slotChild_side (s i : Nat) (hs : 1 ≤ s) : ∀ j, slotChild s i + 1 ≠ levH s j := by
  intro j hj
  rcases j with _ | j'
  · have h0 : levH s 0 = 0 := by simp [levH]
    unfold slotChild at hj
    omega
  · have hLs := (levH_spec s hs j').2
    rw [hLs] at hj
    unfold slotChild at hj
    have heq2 : (i / s) * (s + 1) + (i % s + 1) = levH s j' * (s + 1) := by omega
    have hmodlt : i % s < s := Nat.mod_lt _ (by omega)
    have hL : ((i / s) * (s + 1) + (i % s + 1)) % (s + 1) = i % s + 1 := by
      rw [Nat.add_comm, Nat.add_mul_mod_self_right]
      exact Nat.mod_eq_of_lt (by omega)
    have hR : (levH s j' * (s + 1)) % (s + 1) = 0 := Nat.mul_mod_left _ _
    rw [heq2] at hL
    omega

end CSS

namespace CSS

/-- C4, amended.  After construction from a sorted sequence with `N > s`
(at least two leaf groups), every internal slot `T[i]` equals
`L[endB (slotChild i) - 1]` — the largest key of the *effective* (i.e.
`last_chunk`-clamped) coverage of the subtree the slot summarises; the
effective coverages of consecutive sibling subtrees are adjacent
(`startB (c+1) = endB c`); all keys in the left child's effective coverage are
`≤ T[i]`; and all keys in the right child's effective coverage are `≥ T[i]`
(with duplicates, equality on the right can occur, so the claim's strict `>`
is weakened to `≥`).  Nothing mutates `T` in the model.  -/
theorem c4_amended_directory (nodeSize kSize : Nat) (L : List Int)
    (hs : 1 ≤ slotsPer nodeSize kSize)
    (h2 : 2 ≤ leafNodes (slotsPer nodeSize kSize) L.length)
    (hsort : List.Pairwise (· ≤ ·) L) :
    ∀ i, i < n_internal (slotsPer nodeSize kSize) L.length * slotsPer nodeSize kSize →
      ((cssCtor nodeSize kSize L).tree.getD i 0 =
        L.getD (endB (slotsPer nodeSize kSize) L.length
          (slotChild (slotsPer nodeSize kSize) i) - 1) 0 ∧
      startB (slotsPer nodeSize kSize) L.length (slotChild (slotsPer nodeSize kSize) i + 1) =
        endB (slotsPer nodeSize kSize) L.length (slotChild (slotsPer nodeSize kSize) i) ∧
      (∀ p, startB (slotsPer nodeSize kSize) L.length (slotChild (slotsPer nodeSize kSize) i) ≤ p →
        p < endB (slotsPer nodeSize kSize) L.length (slotChild (slotsPer nodeSize kSize) i) →
        L.getD p 0 ≤ (cssCtor nodeSize kSize L).tree.getD i 0) ∧
      (∀ p, startB (slotsPer nodeSize kSize) L.length (slotChild (slotsPer nodeSize kSize) i + 1) ≤ p →
        p < endB (slotsPer nodeSize kSize) L.length (slotChild (slotsPer nodeSize kSize) i + 1) →
        (cssCtor nodeSize kSize L).tree.getD i 0 ≤ L.getD p 0)) := by
  intro i hi
  have htree : (cssCtor nodeSize kSize L).tree.getD i 0 =
      slotVal (slotsPer nodeSize kSize) L.length L i :=
    treeList_getD _ _ L i hi
  have h1 := slotVal_eq (slotsPer nodeSize kSize) L.length L hs h2 i
  have hadj := adjacent (slotsPer nodeSize kSize) L.length hs h2
    (slotChild (slotsPer nodeSize kSize) i)
    (by unfold slotChild; omega)
    (slotChild_side (slotsPer nodeSize kSize) i hs)
  have hEb1 := endB_bounds (slotsPer nodeSize kSize) L.length hs h2
    (slotChild (slotsPer nodeSize kSize) i)
  have hEb2 := endB_bounds (slotsPer nodeSize kSize) L.length hs h2
    (slotChild (slotsPer nodeSize kSize) i + 1)
  refine ⟨htree.trans h1, hadj.symm, ?_, ?_⟩
  · intro p hp1 hp2
    rw [htree, h1]
    exact sorted_getD_mono hsort (by omega) (by omega)
  · intro p hp1 hp2
    rw [htree, h1]
    rw [← hadj] at hp1
    exact sorted_getD_mono hsort (by omega) (by omega)

/-- Witness for the amended C4 on the special-case tree of the counterexample
(`CSSTree<4, int16_t>` over `0..6`). -/
theorem c4_amended_directory_witness :
    1 ≤ slotsPer 4 2 ∧ 2 ≤ leafNodes (slotsPer 4 2) dataC.length ∧
    List.Pairwise (· ≤ ·) dataC ∧
    (∀ i, i < n_internal (slotsPer 4 2) dataC.length * slotsPer 4 2 →
      ((cssCtor 4 2 dataC).tree.getD i 0 =
        dataC.getD (endB (slotsPer 4 2) dataC.length (slotChild (slotsPer 4 2) i) - 1) 0 ∧
      startB (slotsPer 4 2) dataC.length (slotChild (slotsPer 4 2) i + 1) =
        endB (slotsPer 4 2) dataC.length (slotChild (slotsPer 4 2) i) ∧
      (∀ p, startB (slotsPer 4 2) dataC.length (slotChild (slotsPer 4 2) i) ≤ p →
        p < endB (slotsPer 4 2) dataC.length (slotChild (slotsPer 4 2) i) →
        dataC.getD p 0 ≤ (cssCtor 4 2 dataC).tree.getD i 0) ∧
      (∀ p, startB (slotsPer 4 2) dataC.length (slotChild (slotsPer 4 2) i + 1) ≤ p →
        p < endB (slotsPer 4 2) dataC.length (slotChild (slotsPer 4 2) i + 1) →
        (cssCtor 4 2 dataC).tree.getD i 0 ≤ dataC.getD p 0))) :=
  ⟨by decide, by decide, by decide, c4_amended_directory 4 2 dataC (by decide) (by decide) (by decide)⟩

/-- C10.  For `N > s`, every leaf index the builder reads is within `[0, N)`:
in the negative-`diff` branch `0 ≤ diff + N + s - 1 < N`, in the in-range
branch `0 ≤ diff + s - 1 < N`, and in the special-case branch
`0 ≤ last_chunk - 1 < N`; consequently every slot of `T` is assigned some
element of `L`. -/
theorem c10_builder_reads_in_bounds (s N : Nat) (L : List Int) (hs : 1 ≤ s) (hN : s < N)
    (hL : L.length = N) :
    ∀ i, i < n_internal s N * s →
      ((((descRight s N (slotChild s i) : Int) - half_marker s N) * s < 0 →
        0 ≤ ((descRight s N (slotChild s i) : Int) - half_marker s N) * s + N + s - 1 ∧
        ((descRight s N (slotChild s i) : Int) - half_marker s N) * s + N + s - 1 < N) ∧
      (0 ≤ ((descRight s N (slotChild s i) : Int) - half_marker s N) * s →
        ((descRight s N (slotChild s i) : Int) - half_marker s N) * s + s - 1 <
          (N : Int) - last_internal s N * s →
        0 ≤ ((descRight s N (slotChild s i) : Int) - half_marker s N) * s + s - 1 ∧
        ((descRight s N (slotChild s i) : Int) - half_marker s N) * s + s - 1 < N) ∧
      (1 ≤ last_chunk s N ∧ last_chunk s N - 1 < N)) ∧
      ∃ j, ∃ hj : j < L.length, slotVal s N L i = L.get ⟨j, hj⟩ := by
  have h2 : 2 ≤ leafNodes s N := by
    have h := (Nat.le_div_iff_mul_le (show 0 < s by omega)).mpr
      (show 2 * s ≤ N + s - 1 by omega)
    unfold leafNodes
    omega
  have hMD := n_internal_add s N hs h2
  have hDs := last_internal_bound s N hs h2
  intro i hi
  generalize hgc : descRight s N (slotChild s i) = c
  have hcM : n_internal s N ≤ c := hgc ▸ descRight_ge s N _
  have hDcast : ((last_internal s N : Int) * s) = ((last_internal s N * s : Nat) : Int) := by
    push_cast; ring
  have hlc : last_chunk s N = N - last_internal s N * s := rfl
  constructor
  · refine ⟨?_, ?_, ?_⟩
    · intro hneg
      have hcH : c < half_marker s N := by
        by_contra hge
        push_neg at hge
        have : (0 : Int) ≤ ((c : Int) - half_marker s N) * s := by
          apply mul_nonneg
          · have : (half_marker s N : Int) ≤ c := by exact_mod_cast hge
            omega
          · exact_mod_cast (Nat.zero_le s)
        omega
      have hprod : ((c : Int) - half_marker s N) * s =
          -(((half_marker s N - c) * s : Nat) : Int) := by
        have h1 : ((half_marker s N - c : Nat) : Int) = (half_marker s N : Int) - c := by
          rw [Nat.cast_sub (Nat.le_of_lt hcH)]
        calc ((c : Int) - half_marker s N) * s
            = -(((half_marker s N : Int) - c) * s) := by ring
          _ = -((((half_marker s N - c : Nat) : Int)) * s) := by rw [h1]
          _ = -(((half_marker s N - c) * s : Nat) : Int) := by push_cast; ring
      have h1le : 1 * s ≤ (half_marker s N - c) * s := Nat.mul_le_mul_right _ (by omega)
      have hXle : (half_marker s N - c) * s ≤ last_internal s N * s :=
        Nat.mul_le_mul_right _ (by omega)
      rw [hprod]
      omega
    · intro hge hlt
      rw [hDcast] at hlt
      omega
    · omega
  · rw [slotVal_eq s N L hs h2 i]
    have hEb : 1 ≤ endB s N (slotChild s i) ∧ endB s N (slotChild s i) ≤ N :=
      endB_bounds s N hs h2 _
    refine ⟨endB s N (slotChild s i) - 1, by omega, ?_⟩
    rw [List.getD_eq_get L 0 (by omega)]

/-- Witness for C10 on the special-case tree. -/
theorem c10_builder_reads_in_bounds_witness :
    1 ≤ (2 : Nat) ∧ 2 < 7 ∧ dataC.length = 7 ∧
    (∀ i, i < n_internal 2 7 * 2 →
      ((((descRight 2 7 (slotChild 2 i) : Int) - half_marker 2 7) * 2 < 0 →
        0 ≤ ((descRight 2 7 (slotChild 2 i) : Int) - half_marker 2 7) * 2 + 7 + 2 - 1 ∧
        ((descRight 2 7 (slotChild 2 i) : Int) - half_marker 2 7) * 2 + 7 + 2 - 1 < 7) ∧
      (0 ≤ ((descRight 2 7 (slotChild 2 i) : Int) - half_marker 2 7) * 2 →
        ((descRight 2 7 (slotChild 2 i) : Int) - half_marker 2 7) * 2 + 2 - 1 <
          (7 : Int) - last_internal 2 7 * 2 →
        0 ≤ ((descRight 2 7 (slotChild 2 i) : Int) - half_marker 2 7) * 2 + 2 - 1 ∧
        ((descRight 2 7 (slotChild 2 i) : Int) - half_marker 2 7) * 2 + 2 - 1 < 7) ∧
      (1 ≤ last_chunk 2 7 ∧ last_chunk 2 7 - 1 < 7)) ∧
      ∃ j, ∃ hj : j < dataC.length, slotVal 2 7 dataC i = dataC.get ⟨j, hj⟩) :=
  ⟨by decide, by decide, by decide, c10_builder_reads_in_bounds 2 7 dataC (by decide) (by decide) (by decide)⟩

end CSS

namespace CSS

/-! ## C9: the `diff` computations in 64-bit arithmetic -/

/-- Reinterpreting `x mod 2^64` as a two's-complement `long` recovers `x`
whenever `x` fits in a signed 64-bit integer. -/
theorem toSigned64_emod {x : Int} (h1 : -(2 ^ 63) ≤ x) (h2 : x < 2 ^ 63) :
    toSigned64 (x % (2 ^ 64 : Int)).toNat = x := by
  unfold toSigned64
  split <;> omega

/-- Modular multiplication absorbs an inner reduction. -/
theorem emod_mul_emod (y z W : Int) : y % W * z % W = y * z % W := by
  conv_rhs => rw [Int.mul_emod]
  rw [Int.mul_emod (y % W) z W, Int.emod_emod_of_dvd _ dvd_rfl]

/-- The builder's `long diff = (child - half_marker) * slots_per_node` (with
`size_t` subtraction and multiplication) computes the exact signed value
whenever it fits in 64 signed bits. -/
theorem diffBuilder_eq (c H s : Nat) (hc : c < 2 ^ 63) (hH : H < 2 ^ 63)
    (hcs : c * s < 2 ^ 63) (hHs : H * s < 2 ^ 63) :
    diffBuilder c H s = ((c : Int) - H) * s := by
  have hxexp : ((c : Int) - H) * s = ((c * s : Nat) : Int) - ((H * s : Nat) : Int) := by
    rw [Nat.cast_mul, Nat.cast_mul]
    ring
  have hxb1 : -(2 ^ 63) ≤ ((c : Int) - H) * s := by rw [hxexp]; omega
  have hxb2 : ((c : Int) - H) * s < 2 ^ 63 := by rw [hxexp]; omega
  have hHm : H % 2 ^ 64 = H := by omega
  have hle : H ≤ c + 2 ^ 64 := by omega
  have hA : ((c + 2 ^ 64 - H % 2 ^ 64 : Nat) : Int) =
      ((c : Int) - H) + (2 ^ 64 : Int) := by
    rw [hHm, Nat.cast_sub hle, Nat.cast_add, Nat.cast_pow]
    push_cast
    ring
  have hV : (((c + 2 ^ 64 - H % 2 ^ 64) % 2 ^ 64 * s % 2 ^ 64 : Nat) : Int) =
      (((c : Int) - H) * s) % (2 ^ 64 : Int) := by
    have cW : (((2 ^ 64 : Nat) : Int)) = (2 ^ 64 : Int) := by
      rw [Nat.cast_pow]; norm_num
    calc (((c + 2 ^ 64 - H % 2 ^ 64) % 2 ^ 64 * s % 2 ^ 64 : Nat) : Int)
        = (((c + 2 ^ 64 - H % 2 ^ 64) % 2 ^ 64 * s : Nat) : Int) % (((2 ^ 64 : Nat) : Int)) := by
          rw [Int.natCast_mod]
      _ = (((c + 2 ^ 64 - H % 2 ^ 64) % 2 ^ 64 : Nat) : Int) * (s : Int) % (((2 ^ 64 : Nat) : Int)) := by
          rw [Nat.cast_mul]
      _ = ((c + 2 ^ 64 - H % 2 ^ 64 : Nat) : Int) % (((2 ^ 64 : Nat) : Int)) * (s : Int) %
            (((2 ^ 64 : Nat) : Int)) := by
          rw [Int.natCast_mod]
      _ = (((c : Int) - H) + (2 ^ 64 : Int)) % (2 ^ 64 : Int) * (s : Int) % (2 ^ 64 : Int) := by
          rw [hA, cW]
      _ = ((c : Int) - H) % (2 ^ 64 : Int) * (s : Int) % (2 ^ 64 : Int) := by
          have hw : (((c : Int) - H) + (2 ^ 64 : Int)) % (2 ^ 64 : Int) =
              ((c : Int) - H) % (2 ^ 64 : Int) := by omega
          rw [hw]
      _ = (((c : Int) - H) * s) % (2 ^ 64 : Int) := emod_mul_emod _ _ _
  have hVtoNat : ((c + 2 ^ 64 - H % 2 ^ 64) % 2 ^ 64 * s % 2 ^ 64 : Nat) =
      ((((c : Int) - H) * s) % (2 ^ 64 : Int)).toNat := by
    omega
  unfold diffBuilder
  rw [hVtoNat]
  exact toSigned64_emod hxb1 hxb2

/-- The searcher's `long diff = (long(child) - long(half_marker)) * slots_per_node`
(whose multiplication converts the signed difference back to `size_t`)
computes the exact signed value whenever it fits in 64 signed bits. -/
theorem diffFinder_eq (c H s : Nat) (hcs : c * s < 2 ^ 63) (hHs : H * s < 2 ^ 63) :
    diffFinder c H s = ((c : Int) - H) * s := by
  have hxexp : ((c : Int) - H) * s = ((c * s : Nat) : Int) - ((H * s : Nat) : Int) := by
    rw [Nat.cast_mul, Nat.cast_mul]
    ring
  have hxb1 : -(2 ^ 63) ≤ ((c : Int) - H) * s := by rw [hxexp]; omega
  have hxb2 : ((c : Int) - H) * s < 2 ^ 63 := by rw [hxexp]; omega
  have hnn : (0 : Int) ≤ ((c : Int) - H) % (2 ^ 64 : Int) := by omega
  have hV : (((((c : Int) - H) % (2 ^ 64 : Int)).toNat * s % 2 ^ 64 : Nat) : Int) =
      (((c : Int) - H) * s) % (2 ^ 64 : Int) := by
    have cW : (((2 ^ 64 : Nat) : Int)) = (2 ^ 64 : Int) := by
      rw [Nat.cast_pow]; norm_num
    calc (((((c : Int) - H) % (2 ^ 64 : Int)).toNat * s % 2 ^ 64 : Nat) : Int)
        = (((((c : Int) - H) % (2 ^ 64 : Int)).toNat * s : Nat) : Int) % (((2 ^ 64 : Nat) : Int)) := by
          rw [Int.natCast_mod]
      _ = (((((c : Int) - H) % (2 ^ 64 : Int)).toNat : Nat) : Int) * (s : Int) %
            (((2 ^ 64 : Nat) : Int)) := by
          rw [Nat.cast_mul]
      _ = ((c : Int) - H) % (2 ^ 64 : Int) * (s : Int) % (2 ^ 64 : Int) := by
          rw [Int.toNat_of_nonneg hnn, cW]
      _ = (((c : Int) - H) * s) % (2 ^ 64 : Int) := emod_mul_emod _ _ _
  have hVtoNat : ((((c : Int) - H) % (2 ^ 64 : Int)).toNat * s % 2 ^ 64 : Nat) =
      ((((c : Int) - H) * s) % (2 ^ 64 : Int)).toNat := by
    omega
  unfold diffFinder
  rw [hVtoNat]
  exact toSigned64_emod hxb1 hxb2

/-- C9.  Reachable child indices are bounded by `M*(s+1)` (both for the
builder's slots after the rightmost descent and for the search descent), and
for every such child the two `diff` computations — the builder's wrapping
unsigned subtraction reinterpreted as `long`, and the searcher's signed
subtraction whose product passes through `size_t` — equal the exact
mathematical signed value `(child - H) * s`, negative values included, as soon
as the geometry fits in signed 64-bit (as it does whenever `N` and `s` fit in
32 bits). -/
theorem c9_diff_signed_exact (s N c : Nat) (hs : 1 ≤ s)
    (hreach : c ≤ n_internal s N * (s + 1))
    (hb1 : n_internal s N * (s + 1) * s < 2 ^ 63)
    (hb2 : half_marker s N * s < 2 ^ 63) :
    (∀ i, i < n_internal s N * s →
        slotChild s i ≤ n_internal s N * (s + 1) ∧
        descRight s N (slotChild s i) ≤ n_internal s N * (s + 1)) ∧
    diffBuilder c (half_marker s N) s = ((c : Int) - half_marker s N) * s ∧
    diffFinder c (half_marker s N) s = ((c : Int) - half_marker s N) * s := by
  have hcs : c * s < 2 ^ 63 := by
    have h := Nat.mul_le_mul_right s hreach
    omega
  have hc : c < 2 ^ 63 := by
    have h : c * 1 ≤ c * s := Nat.mul_le_mul_left _ (by omega)
    omega
  have hH : half_marker s N < 2 ^ 63 := by
    have h : half_marker s N * 1 ≤ half_marker s N * s := Nat.mul_le_mul_left _ (by omega)
    omega
  refine ⟨?_, diffBuilder_eq _ _ _ hc hH hcs hb2, diffFinder_eq _ _ _ hcs hb2⟩
  intro i hi
  have hq : i / s < n_internal s N := (Nat.div_lt_iff_lt_mul (by omega)).mpr (by omega)
  have hmod : i % s < s := Nat.mod_lt _ (by omega)
  have hone : (i / s + 1) * (s + 1) ≤ n_internal s N * (s + 1) :=
    Nat.mul_le_mul_right _ (by omega)
  have hexp : (i / s + 1) * (s + 1) = (i / s) * (s + 1) + s + 1 := by ring
  have hslot : slotChild s i ≤ n_internal s N * (s + 1) := by
    unfold slotChild
    omega
  exact ⟨hslot, descRight_le s N _ hslot⟩

/-- Witness for C9 on the `s = 1`, `N = 17` tree (`M = 16`, `H = 31`),
at the reachable child `c = 20`. -/
theorem c9_diff_signed_exact_witness :
    1 ≤ (1 : Nat) ∧ 20 ≤ n_internal 1 17 * (1 + 1) ∧
    n_internal 1 17 * (1 + 1) * 1 < 2 ^ 63 ∧ half_marker 1 17 * 1 < 2 ^ 63 ∧
    ((∀ i, i < n_internal 1 17 * 1 →
        slotChild 1 i ≤ n_internal 1 17 * (1 + 1) ∧
        descRight 1 17 (slotChild 1 i) ≤ n_internal 1 17 * (1 + 1)) ∧
    diffBuilder 20 (half_marker 1 17) 1 = ((20 : Int) - half_marker 1 17) * 1 ∧
    diffFinder 20 (half_marker 1 17) 1 = ((20 : Int) - half_marker 1 17) * 1) :=
  ⟨by decide, by decide, by decide, by decide,
   c9_diff_signed_exact 1 17 20 (by decide) (by decide) (by decide) (by decide)⟩

end CSS

namespace CSS

/-! ## C5: the two per-node strategies -/

/-- Specification of the linear scan: it stops at the count of leading slots
less than the key, capped by the budget. -/
theorem scanLoCnt_spec (T : List Int) (base : Nat) (key : Int) :
    ∀ rem lo,
      lo ≤ scanLoCnt T base key rem lo ∧
      scanLoCnt T base key rem lo ≤ lo + rem ∧
      (∀ j, lo ≤ j → j < scanLoCnt T base key rem lo → T.getD (base + j) 0 < key) ∧
      (scanLoCnt T base key rem lo < lo + rem →
        key ≤ T.getD (base + scanLoCnt T base key rem lo) 0) := by
  intro rem
  induction rem with
  | zero =>
    intro lo
    have hz : scanLoCnt T base key 0 lo = lo := rfl
    rw [hz]
    refine ⟨Nat.le_refl _, by omega, ?_, ?_⟩
    · intro j h1 h2
      exact absurd h2 (by omega)
    · intro h
      exact absurd h (by omega)
  | succ rem ih =>
    intro lo
    simp only [scanLoCnt]
    by_cases hcmp : T.getD (base + lo) 0 < key
    · rw [if_pos hcmp]
      obtain ⟨r1, r2, r3, r4⟩ := ih (lo + 1)
      refine ⟨by omega, by omega, ?_, ?_⟩
      · intro j h1 h2
        rcases Nat.eq_or_lt_of_le h1 with he | hlt
        · exact he ▸ hcmp
        · exact r3 j (by omega) h2
      · intro h
        exact r4 (by omega)
    · rw [if_neg hcmp]
      refine ⟨Nat.le_refl _, by omega, ?_, ?_⟩
      · intro j h1 h2
        exact absurd h2 (by omega)
      · intro _
        exact not_lt.mp hcmp

/-- Specification of the half-interval `lower_bound` on a sorted window: the
result is the least position of the window holding a value `≥ key` (or the
one-past-end position). -/
theorem lbF_spec (T : List Int) (key : Int) :
    ∀ fuel first len, len ≤ fuel →
      (∀ p q, first ≤ p → p ≤ q → q < first + len → T.getD p 0 ≤ T.getD q 0) →
      first ≤ lbF T key fuel first len ∧
      lbF T key fuel first len ≤ first + len ∧
      (∀ p, first ≤ p → p < lbF T key fuel first len → T.getD p 0 < key) ∧
      (lbF T key fuel first len < first + len → key ≤ T.getD (lbF T key fuel first len) 0) := by
  intro fuel
  induction fuel with
  | zero =>
    intro first len hlen _hmono
    have h0 : len = 0 := by omega
    subst h0
    simp only [lbF]
    refine ⟨Nat.le_refl _, by omega, ?_, ?_⟩
    · intro p h1 h2
      exact absurd h2 (by omega)
    · intro h
      exact absurd h (by omega)
  | succ f ih =>
    intro first len hlen hmono
    by_cases h0 : len = 0
    · subst h0
      have hz : lbF T key (f + 1) first 0 = first := rfl
      rw [hz]
      refine ⟨Nat.le_refl _, by omega, ?_, ?_⟩
      · intro p h1 h2
        exact absurd h2 (by omega)
      · intro h
        exact absurd h (by omega)
    · simp only [lbF]
      rw [if_neg h0]
      have hhalf : len / 2 < len := Nat.div_lt_self (by omega) (by omega)
      by_cases hcmp : T.getD (first + len / 2) 0 < key
      · rw [if_pos hcmp]
        have hmono2 : ∀ p q, first + len / 2 + 1 ≤ p → p ≤ q →
            q < first + len / 2 + 1 + (len - len / 2 - 1) → T.getD p 0 ≤ T.getD q 0 := by
          intro p q hp hpq hq
          exact hmono p q (by omega) hpq (by omega)
        obtain ⟨r1, r2, r3, r4⟩ := ih (first + len / 2 + 1) (len - len / 2 - 1) (by omega) hmono2
        refine ⟨by omega, by omega, ?_, ?_⟩
        · intro p h1 h2
          by_cases hple : p ≤ first + len / 2
          · exact lt_of_le_of_lt (hmono p (first + len / 2) h1 hple (by omega)) hcmp
          · exact r3 p (by omega) h2
        · intro hlt
          exact r4 (by omega)
      · rw [if_neg hcmp]
        have hmono2 : ∀ p q, first ≤ p → p ≤ q → q < first + len / 2 →
            T.getD p 0 ≤ T.getD q 0 := by
          intro p q hp hpq hq
          exact hmono p q hp hpq (by omega)
        obtain ⟨r1, r2, r3, r4⟩ := ih first (len / 2) (by omega) hmono2
        refine ⟨r1, by omega, r3, ?_⟩
        intro _hlt
        rcases Nat.lt_or_ge (lbF T key f first (len / 2)) (first + len / 2) with hx | hx
        · exact r4 hx
        · have hxe : lbF T key f first (len / 2) = first + len / 2 := by omega
          rw [hxe]
          exact not_lt.mp hcmp

/-- Monotone access through a sorted-slice check. -/
theorem isSortedB_getD_mono {l : List Int} (h : isSortedB l = true) {p q : Nat}
    (hpq : p ≤ q) (hq : q < l.length) : l.getD p 0 ≤ l.getD q 0 :=
  sorted_getD_mono ((isSortedB_iff l).mp h) hpq hq

/-- Accessing a window slice. -/
theorem slice_getD (T : List Int) (b m j : Nat) (hj : j < m) :
    ((T.drop b).take m).getD j 0 = T.getD (b + j) 0 := by
  rw [List.getD_eq_get?, List.getD_eq_get?, List.get?_take hj, List.get?_drop]

/-- A sorted window gives monotone access over its positions. -/
theorem window_mono {T : List Int} {b m : Nat}
    (h : isSortedB ((T.drop b).take m) = true) (hlen : b + m ≤ T.length) :
    ∀ p q, b ≤ p → p ≤ q → q < b + m → T.getD p 0 ≤ T.getD q 0 := by
  intro p q hbp hpq hq
  have hlq : q - b < ((T.drop b).take m).length := by
    rw [List.length_take, List.length_drop]
    omega
  have hm := isSortedB_getD_mono h (show p - b ≤ q - b by omega) hlq
  rw [slice_getD T b m (p - b) (by omega), slice_getD T b m (q - b) (by omega)] at hm
  rw [show b + (p - b) = p from by omega, show b + (q - b) = q from by omega] at hm
  exact hm

/-- Unfolding of `binLo` (lets expanded). -/
theorem binLo_def (T : List Int) (s M child : Nat) (key : Int) :
    binLo T s M child key =
      (if lbF T key (min (s + 1) (M * s - child * s)) (child * s)
          (min (s + 1) (M * s - child * s)) =
          child * s + min (s + 1) (M * s - child * s) then
        lbF T key (min (s + 1) (M * s - child * s)) (child * s)
          (min (s + 1) (M * s - child * s)) - 1
      else
        lbF T key (min (s + 1) (M * s - child * s)) (child * s)
          (min (s + 1) (M * s - child * s))) - child * s := rfl

/-- C5, amended.  For an internal node whose binary-search window — the
`min(s+1, M·s − base)` slots starting at its base, i.e. the node's `s` slots
plus the first slot of the next node unless clipped at the end of the buffer —
is non-decreasing, the two strategies compute the same `lo` whenever the
window has full length `s+1` (every node but the last) or some node key is
`≥ key`; and this common `lo` is the number of node keys strictly less than
the key, capped at `s`.  (In the excluded case — the last node with all keys
less than the key — the binary strategy yields `s−1` while the scan yields
`s`; see the counterexample.) -/
theorem c5_amended_equivalence (T : List Int) (s M child : Nat) (key : Int)
    (hs : 1 ≤ s) (hchild : child < M)
    (hmono : isSortedB ((T.drop (child * s)).take (min (s + 1) (M * s - child * s))) = true)
    (hwin : child * s + min (s + 1) (M * s - child * s) ≤ T.length)
    (hcase : child * s + s + 1 ≤ M * s ∨ ∃ j, j < s ∧ key ≤ T.getD (child * s + j) 0) :
    binLo T s M child key = scanLo T s child key ∧
    scanLo T s child key ≤ s ∧
    (∀ j, j < scanLo T s child key → T.getD (child * s + j) 0 < key) ∧
    (scanLo T s child key < s → key ≤ T.getD (child * s + scanLo T s child key) 0) := by
  have hmul : (child + 1) * s ≤ M * s := Nat.mul_le_mul_right _ (by omega)
  have hexp : (child + 1) * s = child * s + s := by ring
  have hlen_ge : s ≤ min (s + 1) (M * s - child * s) := by omega
  have hlen_le : min (s + 1) (M * s - child * s) ≤ s + 1 := by omega
  have hw := window_mono hmono hwin
  obtain ⟨s1, s2, s3, s4⟩ := scanLoCnt_spec T (child * s) key s 0
  obtain ⟨b1, b2, b3, b4⟩ := lbF_spec T key (min (s + 1) (M * s - child * s)) (child * s)
    (min (s + 1) (M * s - child * s)) (Nat.le_refl _) hw
  have hscan : scanLo T s child key = scanLoCnt T (child * s) key s 0 := rfl
  rw [hscan, binLo_def]
  have hsl3 : ∀ j, j < scanLoCnt T (child * s) key s 0 → T.getD (child * s + j) 0 < key := by
    intro j hj
    exact s3 j (by omega) hj
  refine ⟨?_, by omega, hsl3, by intro h; exact s4 (by omega)⟩
  by_cases hex : scanLoCnt T (child * s) key s 0 < s
  · -- some node key is ≥ key; both strategies stop at the same index
    have hge := s4 (by omega)
    have hr_le : lbF T key (min (s + 1) (M * s - child * s)) (child * s)
        (min (s + 1) (M * s - child * s)) ≤ child * s + scanLoCnt T (child * s) key s 0 := by
      by_contra hc
      push_neg at hc
      have hlt := b3 (child * s + scanLoCnt T (child * s) key s 0) (by omega) (by omega)
      omega
    have hr_eq : lbF T key (min (s + 1) (M * s - child * s)) (child * s)
        (min (s + 1) (M * s - child * s)) = child * s + scanLoCnt T (child * s) key s 0 := by
      rcases Nat.lt_or_ge (lbF T key (min (s + 1) (M * s - child * s)) (child * s)
          (min (s + 1) (M * s - child * s))) (child * s + scanLoCnt T (child * s) key s 0)
        with hx | hx
      · exfalso
        have hk := b4 (by omega)
        have hsmall := hsl3 (lbF T key (min (s + 1) (M * s - child * s)) (child * s)
            (min (s + 1) (M * s - child * s)) - child * s) (by omega)
        rw [show child * s + (lbF T key (min (s + 1) (M * s - child * s)) (child * s)
            (min (s + 1) (M * s - child * s)) - child * s) =
            lbF T key (min (s + 1) (M * s - child * s)) (child * s)
            (min (s + 1) (M * s - child * s)) from by omega] at hsmall
        omega
      · omega
    rw [if_neg (by omega)]
    omega
  · -- every node key is < key; the full-length window forces agreement
    have hsl : scanLoCnt T (child * s) key s 0 = s := by omega
    have hlen_eq : min (s + 1) (M * s - child * s) = s + 1 := by
      rcases hcase with hA | ⟨j, hj, hkey⟩
      · omega
      · exact absurd (hsl3 j (by omega)) (not_lt.mpr hkey)
    have hr_ge : child * s + s ≤ lbF T key (min (s + 1) (M * s - child * s)) (child * s)
        (min (s + 1) (M * s - child * s)) := by
      by_contra hc
      push_neg at hc
      have hk := b4 (by omega)
      have hsmall := hsl3 (lbF T key (min (s + 1) (M * s - child * s)) (child * s)
          (min (s + 1) (M * s - child * s)) - child * s) (by omega)
      rw [show child * s + (lbF T key (min (s + 1) (M * s - child * s)) (child * s)
          (min (s + 1) (M * s - child * s)) - child * s) =
          lbF T key (min (s + 1) (M * s - child * s)) (child * s)
          (min (s + 1) (M * s - child * s)) from by omega] at hsmall
      omega
    by_cases hre : lbF T key (min (s + 1) (M * s - child * s)) (child * s)
        (min (s + 1) (M * s - child * s)) =
        child * s + min (s + 1) (M * s - child * s)
    · rw [if_pos hre]
      omega
    · rw [if_neg hre]
      omega

/-- Witness for the amended C5 on the counterexample's tree
(`CSSTree<264, int64_t>` over `0..39`, node 0) with the key `10`, for which a
node key is `≥ 10`: both strategies compute `lo = 0`. -/
theorem c5_amended_equivalence_witness :
    1 ≤ (33 : Nat) ∧ 0 < n_internal 33 40 ∧
    (binLo (cssCtor 264 8 dataD).tree 33 (n_internal 33 40) 0 10 =
      scanLo (cssCtor 264 8 dataD).tree 33 0 10 ∧
    scanLo (cssCtor 264 8 dataD).tree 33 0 10 ≤ 33 ∧
    (∀ j, j < scanLo (cssCtor 264 8 dataD).tree 33 0 10 →
      (cssCtor 264 8 dataD).tree.getD (0 * 33 + j) 0 < 10) ∧
    (scanLo (cssCtor 264 8 dataD).tree 33 0 10 < 33 →
      10 ≤ (cssCtor 264 8 dataD).tree.getD (0 * 33 + scanLo (cssCtor 264 8 dataD).tree 33 0 10) 0)) :=
  ⟨by decide, by decide, by
    have h := c5_amended_equivalence (cssCtor 264 8 dataD).tree 33 (n_internal 33 40) 0 10
      (by decide) (by decide) (by decide) (by decide)
      (Or.inr ⟨0, by decide, by decide⟩)
    simpa using h⟩

end CSS

namespace CSS

/-! ## Scan-mode search correctness: boundary lemmas -/

/-- `levH` at 0 and 1. -/
theorem levH_zero (s : Nat) : levH s 0 = 0 := by simp [levH]

/-- `levH s 1 = 1`. -/
theorem levH_one (s : Nat) (hs : 1 ≤ s) : levH s 1 = 1 := by
  unfold levH
  rw [pow_one, Nat.add_sub_cancel, Nat.div_self (by omega)]

/-- `levH` is monotone. -/
theorem levH_mono (s : Nat) (hs : 1 ≤ s) : ∀ j d, levH s j ≤ levH s (j + d) := by
  intro j d
  induction d with
  | zero => exact Nat.le_refl _
  | succ d ih =>
    have hstep := (levH_spec s hs (j + d)).2
    have hle : levH s (j + d) ≤ levH s (j + d) * (s + 1) + 1 := by
      have h1 : levH s (j + d) * 1 ≤ levH s (j + d) * (s + 1) := Nat.mul_le_mul_left _ (by omega)
      omega
    have : j + (d + 1) = (j + d) + 1 := by omega
    rw [this, hstep]
    omega

/-- The leftmost descent from the root reaches the first leaf-level node. -/
theorem descLeft_levH (s N : Nat) (hs : 1 ≤ s) (h2 : 2 ≤ leafNodes s N) :
    ∀ d j, tree_height s N ≤ j + d → j ≤ tree_height s N →
      descLeft s N (levH s j) = half_marker s N := by
  obtain ⟨hlvl, hMH, hM1⟩ := n_internal_window s N hs h2
  intro d
  induction d with
  | zero =>
    intro j h1 h2'
    have hj : j = tree_height s N := by omega
    subst hj
    rw [← half_marker_eq_levH]
    exact descLeft_of_ge s N _ hMH
  | succ d ih =>
    intro j h1 h2'
    by_cases hj : j = tree_height s N
    · subst hj
      rw [← half_marker_eq_levH]
      exact descLeft_of_ge s N _ hMH
    · have hjlt : j + 1 ≤ tree_height s N := by omega
      have hlt : levH s j < n_internal s N := by
        have hmono := levH_mono s hs j (tree_height s N - 1 - j)
        rw [show j + (tree_height s N - 1 - j) = tree_height s N - 1 from by omega] at hmono
        omega
      rw [descLeft_step s N _ hlt]
      have hstep : lstep s (levH s j) = levH s (j + 1) := by
        unfold lstep
        rw [(levH_spec s hs j).2]
      rw [hstep]
      exact ih (j + 1) (by omega) hjlt

/-- The root's subtree coverage starts at position 0. -/
theorem startB_zero (s N : Nat) (hs : 1 ≤ s) (h2 : 2 ≤ leafNodes s N) :
    startB s N 0 = 0 := by
  have hd : descLeft s N 0 = half_marker s N := by
    have h := descLeft_levH s N hs h2 (tree_height s N) 0 (by omega) (by omega)
    rwa [levH_zero] at h
  unfold startB
  rw [hd]
  simp only [effStart]
  rw [if_neg (by omega)]
  simp

/-- The rightmost descent from the root covers the data's end. -/
theorem descRight_rlast (s N : Nat) (hs : 1 ≤ s) (h2 : 2 ≤ leafNodes s N) :
    ∀ d j, 1 ≤ j → tree_height s N ≤ j + d → j ≤ tree_height s N →
      endB s N (levH s j - 1) = N := by
  obtain ⟨hlvl, hMH, hM1⟩ := n_internal_window s N hs h2
  have hpos := (tree_height_pos s N hs h2).1
  have hEln := (tree_height_pos s N hs h2).2.1
  have hNbounds := leafNodes_bounds s N hs h2
  have hMD := n_internal_add s N hs h2
  have hDs := last_internal_bound s N hs h2
  intro d
  induction d with
  | zero =>
    intro j hj1 h1 h2'
    have hj : j = tree_height s N := by omega
    subst hj
    -- the last node of the bottom internal level: H - 1
    have hH1 : levH s (tree_height s N) = half_marker s N := (half_marker_eq_levH s N).symm
    by_cases hD : n_internal s N ≤ half_marker s N - 1
    · -- D ≥ 1: H - 1 is a pruned node, a wrap leaf covering the tail
      unfold endB
      rw [hH1, descRight_of_ge s N _ hD]
      simp only [effEnd]
      rw [if_pos (by omega)]
      have hone : (half_marker s N - (half_marker s N - 1)) * s = 1 * s := by
        congr 1
        omega
      have hsle : 1 * s ≤ (leafNodes s N - 1) * s := Nat.mul_le_mul_right _ (by omega)
      rw [hone]
      omega
    · -- D = 0: H - 1 is internal; one more step lands on the full tree's last leaf
      have hMeq : n_internal s N = half_marker s N := by omega
      have hlt : half_marker s N - 1 < n_internal s N := by omega
      unfold endB
      rw [hH1, descRight_step s N _ hlt]
      have hrs : rstep s (half_marker s N - 1) = half_marker s N * (s + 1) := by
        unfold rstep
        congr 1
        omega
      rw [hrs, descRight_of_ge s N _ (by
        have h1' : half_marker s N * 1 ≤ half_marker s N * (s + 1) :=
          Nat.mul_le_mul_left _ (by omega)
        omega)]
      simp only [effEnd]
      rw [if_neg (by
        have h1' : half_marker s N * 1 ≤ half_marker s N * (s + 1) :=
          Nat.mul_le_mul_left _ (by omega)
        omega)]
      have hq : half_marker s N * (s + 1) - half_marker s N = half_marker s N * s := by
        have hexp : half_marker s N * (s + 1) = half_marker s N * s + half_marker s N := by ring
        omega
      rw [hq]
      -- (H*s)*s + s ≥ N, and D = 0 so last_chunk = N
      have hHs := half_marker_mul s N hs
      have hD0 : last_internal s N = 0 := by omega
      have hlceq : last_chunk s N = N := by
        unfold last_chunk
        rw [hD0]
        omega
      have hbig : N ≤ half_marker s N * s * s + s := by
        have h1' : leafNodes s N * s ≤ expp s N * s := Nat.mul_le_mul_right _ hEln
        have h2'' : half_marker s N * s * s + s = (s * half_marker s N) * s + s := by ring
        have h3' : (s * half_marker s N) * s = (expp s N - 1) * s := by rw [hHs]
        -- (E - 1) * s + s = E * s ≥ leafNodes * s ≥ N
        have hE1 : 1 ≤ expp s N := by
          unfold expp
          exact Nat.one_le_pow _ _ (by omega)
        have hexp2 : (expp s N - 1) * s + s = expp s N * s := by
          have h3 : expp s N - 1 + 1 = expp s N := by omega
          calc (expp s N - 1) * s + s = (expp s N - 1 + 1) * s := by ring
            _ = expp s N * s := by rw [h3]
        omega
      rw [hlceq, Nat.min_eq_right hbig]
  | succ d ih =>
    intro j hj1 h1 h2'
    by_cases hj : j = tree_height s N
    · subst hj
      exact ih (tree_height s N) (by omega) (by omega) (by omega)
    · -- level j's last node is internal; step to level j+1's last node
      have hjlt : j + 1 ≤ tree_height s N := by omega
      have hlt : levH s j - 1 < n_internal s N := by
        have hmono := levH_mono s hs j (tree_height s N - 1 - j)
        rw [show j + (tree_height s N - 1 - j) = tree_height s N - 1 from by omega] at hmono
        omega
      unfold endB
      rw [descRight_step s N _ hlt]
      have hlev1 : 1 ≤ levH s j := by
        have := levH_mono s hs 1 (j - 1)
        rw [show 1 + (j - 1) = j from by omega] at this
        rw [levH_one s hs] at this
        omega
      have hstep : rstep s (levH s j - 1) = levH s (j + 1) - 1 := by
        unfold rstep
        have hsp := (levH_spec s hs j).2
        have hexp : (levH s j - 1 + 1) = levH s j := by omega
        rw [hexp]
        omega
      rw [hstep]
      exact ih (j + 1) (by omega) (by omega) hjlt

/-- The root's subtree coverage ends at position `N`. -/
theorem endB_zero (s N : Nat) (hs : 1 ≤ s) (h2 : 2 ≤ leafNodes s N) :
    endB s N 0 = N := by
  have h0 : (0 : Nat) = levH s 1 - 1 := by rw [levH_one s hs]
  rw [h0]
  exact descRight_rlast s N hs h2 (tree_height s N) 1 (by omega) (by omega)
    (tree_height_pos s N hs h2).1

end CSS

namespace CSS

/-! ## Scan-mode search correctness: window and scan lemmas -/

/-- Specification of the `find_in_leaves` scan loop. -/
theorem scanCnt_spec (L : List Int) (key : Int) :
    ∀ rem a,
      a ≤ scanCnt L key rem a ∧
      scanCnt L key rem a ≤ a + rem ∧
      (∀ j, a ≤ j → j < scanCnt L key rem a → L.getD j 0 < key) ∧
      (scanCnt L key rem a < a + rem → key ≤ L.getD (scanCnt L key rem a) 0) := by
  intro rem
  induction rem with
  | zero =>
    intro a
    have hz : scanCnt L key 0 a = a := rfl
    rw [hz]
    refine ⟨Nat.le_refl _, by omega, ?_, ?_⟩
    · intro j h1 h2
      exact absurd h2 (by omega)
    · intro h
      exact absurd h (by omega)
  | succ rem ih =>
    intro a
    simp only [scanCnt]
    by_cases hcmp : L.getD a 0 < key
    · rw [if_pos hcmp]
      obtain ⟨r1, r2, r3, r4⟩ := ih (a + 1)
      refine ⟨by omega, by omega, ?_, ?_⟩
      · intro j h1 h2
        rcases Nat.eq_or_lt_of_le h1 with he | hlt
        · exact he ▸ hcmp
        · exact r3 j (by omega) h2
      · intro h
        exact r4 (by omega)
    · rw [if_neg hcmp]
      refine ⟨Nat.le_refl _, by omega, ?_, ?_⟩
      · intro j h1 h2
        exact absurd h2 (by omega)
      · intro _
        exact not_lt.mp hcmp

/-- If the window `[a, b)` holds an occurrence of the key (and the data is
sorted), `find_in_leaves` returns a position holding the key. -/
theorem find_in_leaves_finds {L : List Int} {a b p0 : Nat} {k : Int}
    (hsort : List.Pairwise (· ≤ ·) L) (hp1 : a ≤ p0) (hp2 : p0 < b) (hbN : b ≤ L.length)
    (hk : L.getD p0 0 = k) :
    ∃ p, find_in_leaves L a b k = some p ∧ L.getD p 0 = k := by
  obtain ⟨r1, r2, r3, r4⟩ := scanCnt_spec L k (b - a) a
  have hsg : scanGE L a b k = scanCnt L k (b - a) a := rfl
  have hrle : scanCnt L k (b - a) a ≤ p0 := by
    by_contra hc
    push_neg at hc
    have := r3 p0 hp1 hc
    omega
  have hge := r4 (by omega)
  have hle : L.getD (scanCnt L k (b - a) a) 0 ≤ L.getD p0 0 :=
    sorted_getD_mono hsort hrle (by omega)
  have heq : L.getD (scanCnt L k (b - a) a) 0 = k := by omega
  refine ⟨scanCnt L k (b - a) a, ?_, heq⟩
  unfold find_in_leaves
  rw [hsg]
  have hplen : scanCnt L k (b - a) a < L.length := by omega
  rw [dif_pos hplen]
  rw [if_pos (by rw [← List.getD_eq_get L 0 hplen]; exact heq)]

/-- Casting a negative difference times `s`. -/
theorem cast_sub_mul_neg (c H s : Nat) (hcH : c < H) :
    ((c : Int) - H) * s = -(((H - c) * s : Nat) : Int) := by
  have h1 : ((H - c : Nat) : Int) = (H : Int) - c := by
    rw [Nat.cast_sub (Nat.le_of_lt hcH)]
  calc ((c : Int) - H) * s = -(((H : Int) - c) * s) := by ring
    _ = -((((H - c : Nat) : Int)) * s) := by rw [h1]
    _ = -(((H - c) * s : Nat) : Int) := by push_cast; ring

/-- Casting a non-negative difference times `s`. -/
theorem cast_sub_mul_nonneg (c H s : Nat) (hcH : H ≤ c) :
    ((c : Int) - H) * s = (((c - H) * s : Nat) : Int) := by
  have h1 : ((c - H : Nat) : Int) = (c : Int) - H := by
    rw [Nat.cast_sub hcH]
  calc ((c : Int) - H) * s = (((c - H : Nat) : Int)) * s := by rw [h1]
    _ = (((c - H) * s : Nat) : Int) := by push_cast; ring

/-- The search's leaf window of a wrap leaf is exactly its effective slice. -/
theorem leafWindow_wrap (s N c : Nat) (hs : 1 ≤ s) (h2 : 2 ≤ leafNodes s N)
    (hcM : n_internal s N ≤ c) (hcH : c < half_marker s N) :
    leafWindow s N (half_marker s N) c = (effStart s N c, effEnd s N c) := by
  have hMD := n_internal_add s N hs h2
  have hDs := last_internal_bound s N hs h2
  have hXle : (half_marker s N - c) * s ≤ last_internal s N * s :=
    Nat.mul_le_mul_right _ (by omega)
  have h1le : 1 * s ≤ (half_marker s N - c) * s := Nat.mul_le_mul_right _ (by omega)
  simp only [leafWindow]
  rw [cast_sub_mul_neg c (half_marker s N) s hcH]
  rw [if_pos (show -(((half_marker s N - c) * s : Nat) : Int) < 0 by omega)]
  simp only [effStart, effEnd]
  rw [if_pos hcH, if_pos hcH, Prod.mk.injEq]
  constructor
  · omega
  · omega

/-- The search's leaf window of a direct leaf. -/
theorem leafWindow_direct (s N c : Nat) (hcH : half_marker s N ≤ c) :
    leafWindow s N (half_marker s N) c =
      (min N ((c - half_marker s N) * s), min N ((c - half_marker s N) * s + s)) := by
  simp only [leafWindow]
  rw [cast_sub_mul_nonneg c (half_marker s N) s hcH]
  rw [if_neg (show ¬ (((c - half_marker s N) * s : Nat) : Int) < 0 by omega)]
  rw [Prod.mk.injEq]
  constructor
  · omega
  · omega

/-- The slot index of the `j`-th slot of node `c`. -/
theorem slotChild_eval (s c j : Nat) (hs : 1 ≤ s) (hj : j < s) :
    slotChild s (c * s + j) = c * (s + 1) + 1 + j := by
  unfold slotChild
  have hdiv : (c * s + j) / s = c := by
    rw [Nat.add_comm, Nat.mul_comm, Nat.add_mul_div_left _ _ (by omega : 0 < s),
      Nat.div_eq_of_lt hj]
    omega
  have hmod : (c * s + j) % s = j := by
    rw [Nat.add_comm, Nat.mul_comm, Nat.add_mul_mod_self_left]
    exact Nat.mod_eq_of_lt hj
  rw [hdiv, hmod]

/-- The descent loop is the identity outside the internal region. -/
theorem findLoopF_of_ge (useBin : Bool) (T : List Int) (s M : Nat) (key : Int) :
    ∀ fuel c, M ≤ c → findLoopF useBin T s M key fuel c = c := by
  intro fuel
  induction fuel with
  | zero => intro c _; rfl
  | succ f ih => intro c hc; simp only [findLoopF]; rw [if_neg (by omega)]

end CSS

namespace CSS

/-- Invariant of the scan-mode descent loop: every key left of the current
subtree is `< k`, and the subtree's effective slice still holds an occurrence
of `k`.  Both are preserved down to the final leaf. -/
theorem findLoop_scan_invariant (s N : Nat) (L : List Int) (k : Int)
    (hs : 1 ≤ s) (h2 : 2 ≤ leafNodes s N) (hN : N = L.length)
    (hsort : List.Pairwise (· ≤ ·) L) :
    ∀ fuel c, n_internal s N ≤ c + fuel →
      (∀ p, p < startB s N c → L.getD p 0 < k) →
      (∃ p, p < endB s N c ∧ L.getD p 0 = k) →
      n_internal s N ≤ findLoopF false (treeList s N L) s (n_internal s N) k fuel c ∧
      (∀ p, p < startB s N (findLoopF false (treeList s N L) s (n_internal s N) k fuel c) →
        L.getD p 0 < k) ∧
      (∃ p, p < endB s N (findLoopF false (treeList s N L) s (n_internal s N) k fuel c) ∧
        L.getD p 0 = k) := by
  intro fuel
  induction fuel with
  | zero =>
    intro c hc hP hQ
    have hz : findLoopF false (treeList s N L) s (n_internal s N) k 0 c = c := rfl
    rw [hz]
    exact ⟨by omega, hP, hQ⟩
  | succ f ih =>
    intro c hc hP hQ
    by_cases hcM : c < n_internal s N
    · simp only [findLoopF]
      rw [if_pos hcM]
      have hlo : loStep false (treeList s N L) s (n_internal s N) c k
          = scanLoCnt (treeList s N L) (c * s) k s 0 := rfl
      rw [hlo]
      obtain ⟨s1, s2, s3, s4⟩ := scanLoCnt_spec (treeList s N L) (c * s) k s 0
      set lo := scanLoCnt (treeList s N L) (c * s) k s 0 with hlodef
      have hslot : ∀ j, j < s →
          (treeList s N L).getD (c * s + j) 0
            = L.getD (endB s N (c * (s + 1) + 1 + j) - 1) 0 := by
        intro j hj
        have hmul : (c + 1) * s ≤ n_internal s N * s := Nat.mul_le_mul_right _ (by omega)
        have hexp : (c + 1) * s = c * s + s := by ring
        rw [treeList_getD s N L _ (by omega), slotVal_eq s N L hs h2,
          slotChild_eval s c j hs hj]
      have hcs : c ≤ c * (s + 1) := Nat.le_mul_of_pos_right c (by omega)
      refine ih (c * (s + 1) + 1 + lo) (by omega) ?_ ?_
      · intro p hp
        by_cases hlo0 : lo = 0
        · rw [hlo0] at hp
          have he : c * (s + 1) + 1 + 0 = lstep s c := by unfold lstep; omega
          rw [he] at hp
          have hst : startB s N c = startB s N (lstep s c) := by
            unfold startB
            rw [descLeft_step s N c hcM]
          rw [← hst] at hp
          exact hP p hp
        · have hj1 : lo - 1 < s := by omega
          have hTj := s3 (lo - 1) (by omega) (by omega)
          rw [hslot (lo - 1) hj1] at hTj
          have huside := slotChild_side s (c * s + (lo - 1)) hs
          rw [slotChild_eval s c (lo - 1) hs hj1] at huside
          have hadj := adjacent s N hs h2 (c * (s + 1) + 1 + (lo - 1)) (by omega) huside
          have he : c * (s + 1) + 1 + (lo - 1) + 1 = c * (s + 1) + 1 + lo := by omega
          rw [he] at hadj
          rw [← hadj] at hp
          have hub := endB_bounds s N hs h2 (c * (s + 1) + 1 + (lo - 1))
          have hple : L.getD p 0 ≤ L.getD (endB s N (c * (s + 1) + 1 + (lo - 1)) - 1) 0 :=
            sorted_getD_mono hsort (by omega) (by omega)
          omega
      · obtain ⟨p0, hp0e, hp0k⟩ := hQ
        by_cases hlos' : lo < s
        · have hge := s4 (by omega)
          rw [hslot lo hlos'] at hge
          by_cases hpc : p0 < endB s N (c * (s + 1) + 1 + lo)
          · exact ⟨p0, hpc, hp0k⟩
          · push_neg at hpc
            have hub := endB_bounds s N hs h2 (c * (s + 1) + 1 + lo)
            have hubc := endB_bounds s N hs h2 c
            have hp0len : p0 < L.length := by omega
            have hmono : L.getD (endB s N (c * (s + 1) + 1 + lo) - 1) 0 ≤ L.getD p0 0 :=
              sorted_getD_mono hsort (by omega) hp0len
            exact ⟨endB s N (c * (s + 1) + 1 + lo) - 1, by omega, by omega⟩
        · have hlo_eq : lo = s := by omega
          have hr : (c + 1) * (s + 1) = c * (s + 1) + s + 1 := by ring
          have he : c * (s + 1) + 1 + lo = rstep s c := by unfold rstep; omega
          rw [he]
          have hend : endB s N c = endB s N (rstep s c) := by
            unfold endB
            rw [descRight_step s N c hcM]
          exact ⟨p0, hend ▸ hp0e, hp0k⟩
    · have hz : findLoopF false (treeList s N L) s (n_internal s N) k (f + 1) c = c := by
        simp only [findLoopF]
        rw [if_neg hcM]
      rw [hz]
      exact ⟨by omega, hP, hQ⟩

/-- Scan-mode `find` (the linear per-node strategy, the one the source selects
for `NodeSize ≤ 256`) finds every key present in sorted data: it returns a
position dereferencing to the key. -/
theorem findWith_scan_total (nodeSize kSize : Nat) (L : List Int) (k : Int)
    (hs : 1 ≤ slotsPer nodeSize kSize)
    (hsort : List.Pairwise (· ≤ ·) L) (hk : k ∈ L) :
    ∃ p, findWith false (cssCtor nodeSize kSize L) k = some p ∧ L.getD p 0 = k := by
  obtain ⟨⟨p0, hlt⟩, hget⟩ := List.mem_iff_get.mp hk
  have hp0D : L.getD p0 0 = k := by rw [List.getD_eq_get L 0 hlt]; exact hget
  set s := slotsPer nodeSize kSize with hsdef
  by_cases hM : n_internal s L.length = 0
  · have hfw : findWith false (cssCtor nodeSize kSize L) k
        = find_in_leaves L 0 L.length k := by
      unfold findWith
      rw [if_pos (show (cssCtor nodeSize kSize L).n_internal_nodes = 0 from hM)]
      rfl
    rw [hfw]
    exact find_in_leaves_finds hsort (Nat.zero_le p0) hlt (le_refl _) hp0D
  · have h2 : 2 ≤ leafNodes s L.length := by
      by_contra hc
      push_neg at hc
      exact hM (n_internal_eq_zero (by omega))
    have hinv := findLoop_scan_invariant s L.length L k hs h2 rfl hsort
      (n_internal s L.length) 0 (by omega)
      (by
        intro p hp
        rw [startB_zero s L.length hs h2] at hp
        omega)
      ⟨p0, by rw [endB_zero s L.length hs h2]; exact hlt, hp0D⟩
  
    set cf := findLoopF false (treeList s L.length L) s (n_internal s L.length) k
      (n_internal s L.length) 0 with hcfdef
    obtain ⟨hcfM, hP, hQ⟩ := hinv
    obtain ⟨q0, hq0e, hq0k⟩ := hQ
    have hq0ge : startB s L.length cf ≤ q0 := by
      by_contra hcq
      push_neg at hcq
      have := hP q0 hcq
      omega
    have hsb : startB s L.length cf = effStart s L.length cf := by
      unfold startB
      rw [descLeft_of_ge s L.length cf hcfM]
    have heb : endB s L.length cf = effEnd s L.length cf := by
      unfold endB
      rw [descRight_of_ge s L.length cf hcfM]
    have hfw : findWith false (cssCtor nodeSize kSize L) k
        = find_in_leaves L (leafWindow s L.length (half_marker s L.length) cf).1
            (leafWindow s L.length (half_marker s L.length) cf).2 k := by
      unfold findWith
      rw [if_neg (show ¬ (cssCtor nodeSize kSize L).n_internal_nodes = 0 from hM)]
      rfl
    rw [hfw]
    by_cases hcH : cf < half_marker s L.length
    · have hw := leafWindow_wrap s L.length cf hs h2 hcfM hcH
      have hw1 : (leafWindow s L.length (half_marker s L.length) cf).1
          = effStart s L.length cf := by rw [hw]
      have hw2 : (leafWindow s L.length (half_marker s L.length) cf).2
          = effEnd s L.length cf := by rw [hw]
      rw [hw1, hw2]
      have heff := effEnd_bounds s L.length hs h2 cf hcfM
      refine find_in_leaves_finds hsort ?_ ?_ ?_ hq0k
      · rw [← hsb]
        exact hq0ge
      · rw [← heb]
        exact hq0e
      · exact heff.2
    · push_neg at hcH
      have hw := leafWindow_direct s L.length cf hcH
      have hw1 : (leafWindow s L.length (half_marker s L.length) cf).1
          = min L.length ((cf - half_marker s L.length) * s) := by rw [hw]
      have hw2 : (leafWindow s L.length (half_marker s L.length) cf).2
          = min L.length ((cf - half_marker s L.length) * s + s) := by rw [hw]
      rw [hw1, hw2]
      have hsb' : startB s L.length cf
          = min ((cf - half_marker s L.length) * s) (last_chunk s L.length) := by
        rw [hsb]
        simp only [effStart]
        rw [if_neg (by omega)]
      have heb' : endB s L.length cf
          = min ((cf - half_marker s L.length) * s + s) (last_chunk s L.length) := by
        rw [heb]
        simp only [effEnd]
        rw [if_neg (by omega)]
      rw [hsb'] at hq0ge
      rw [heb'] at hq0e
      have hDs := last_internal_bound s L.length hs h2
      have hlc : last_chunk s L.length = L.length - last_internal s L.length * s := rfl
      refine find_in_leaves_finds hsort ?_ ?_ ?_ hq0k
      · omega
      · omega
      · omega

end CSS

namespace CSS

/-! ## The parametric geometry: exact-height instance and the float divergence -/

/-- At `hF = tree_height` the parametric geometry is the exact model. -/
theorem last_internalP_exact (s N : Nat) :
    last_internalP s N (tree_height s N) = last_internal s N := rfl

/-- At `hF = tree_height` the parametric node count is the exact model's. -/
theorem n_internalP_exact (s N : Nat) :
    n_internalP s N (tree_height s N) = n_internal s N := rfl

/-- At `hF = tree_height` the parametric half marker is the exact model's. -/
theorem half_markerP_exact (s N : Nat) :
    half_markerP s N (tree_height s N) = half_marker s N := rfl

/-- At `hF = tree_height` the parametric builder is the exact model's. -/
theorem treeListP_exact (s N : Nat) (L : List Int) :
    treeListP s N (tree_height s N) L = treeList s N L := rfl

/-- At `hF = tree_height` the parametric constructor is the exact model's. -/
theorem cssCtorP_exact (nodeSize kSize : Nat) (data : List Int) :
    cssCtorP nodeSize kSize (tree_height (slotsPer nodeSize kSize) data.length) data
      = cssCtor nodeSize kSize data := rfl

end CSS

namespace CSS

set_option maxRecDepth 400000 in
/-- C6 (refuting the height formulas on the program's computation).  At
`s = 4`, `N = 497` the exact geometry has `leaf_nodes = 125 = 5^3`, so the
claimed height is the minimal `h = 3`; the program computes the height as
`size_t(ceil(log(125)/log(5)))` in `double`, which on glibc evaluates to
`ceil(3.0000000000000004) = 4`.  With the computed height `4` the stored
geometry has `H = 156` and `height()` returns `4` although `5^3` already
reaches `leaf_nodes`: the stored height is not the claimed minimal value and
`D`, `M`, `H` differ from the claimed formulas' values (`M` happens to agree;
`D` and `H` do not). -/
theorem c6_float_height_rounds_up_at_exact_power :
    leafNodes 4 497 = 125 ∧
    (125 : Nat) = 5 ^ 3 ∧
    tree_height 4 497 = 3 ∧
    height (cssCtorP 32 8 4 data497) = 4 ∧
    leafNodes 4 497 ≤ (4 + 1) ^ (4 - 1) ∧
    half_markerP 4 497 4 = 156 ∧
    half_marker 4 497 = 31 ∧
    last_internalP 4 497 4 = 125 ∧
    last_internal 4 497 = 0 ∧
    n_internalP 4 497 4 = n_internal 4 497 := by
  refine ⟨by decide, by decide, by decide, rfl, by decide, by decide, by decide, by decide,
    by decide, by decide⟩

set_option maxRecDepth 400000 in
/-- C2 (refuting the clean `end()` return on the tree the platform builds).
On glibc the stored height of `CSSTree<32, int64_t>` over `0..496` is `4`
(`leaf_nodes = 125 = 5^3`, see C6), not the exact `3`.  For the absent key
`-5` the descent over the stored tree reaches child `31`,
`diff = (31 - 156) * 4 = -500`, the single `diff += leaves.size()` leaves
`-3` (the `assert` is compiled out under `NDEBUG`), and the `size_t` casts
give the leaf window `lo = begin + min(497, 2^64 - 3) = end()`,
`hi = begin + 1`: the scan guard `lo != hi` holds and `*lo < key`
dereferences the past-the-end position and walks further out of bounds,
instead of the claimed clean `end()` return. -/
theorem c2_divergent_geometry_window_oob :
    (-5 : Int) ∉ data497 ∧
    data497.length = 497 ∧
    leafNodes 4 497 = 5 ^ 3 ∧
    tree_height 4 497 = 3 ∧
    (cssCtorP 32 8 4 data497).slots_per_node = 4 ∧
    (cssCtorP 32 8 4 data497).n_internal_nodes = 31 ∧
    (cssCtorP 32 8 4 data497).half_marker = 156 ∧
    findChild false (cssCtorP 32 8 4 data497).tree 4 31 (-5) = 31 ∧
    leafWindowC 4 497 156 31 = (497, 1) := by
  refine ⟨by decide, by decide, by decide, by decide, rfl, by decide, by decide, by decide,
    by decide⟩

end CSS

namespace CSS

/-- C3 (the guard, and the sorted input that escapes it).  Every input that is
not non-decreasing is rejected with `UnsortedInput` before any construction
(all-or-nothing: the error carries no tree).  But the empty input — which is
sorted — passes the `std::is_sorted` guard, and the construction then reaches
the geometry computation with `leaf_nodes = 0`, evaluating
`size_t(ceil(log(0.0)/log(s+1)))`: `log(0.0) = -inf` cast to `size_t` is
undefined behaviour, so "every sorted input constructs successfully" does not
hold of the program. -/
theorem c3_unsorted_rejected_but_empty_passes_guard :
    (∀ nodeSize kSize : Nat, ∀ data : List Int, ¬ List.Pairwise (· ≤ ·) data →
      cssNew nodeSize kSize data = Except.error CSSError.unsortedInput) ∧
    isSortedB ([] : List Int) = true ∧
    (∀ s : Nat, 1 ≤ s → leafNodes s 0 = 0) := by
  refine ⟨?_, rfl, ?_⟩
  · intro nodeSize kSize data hns
    exact (c3_ctor_rejects_unsorted nodeSize kSize data).1 hns
  · intro s hs
    simp only [leafNodes]
    exact Nat.div_eq_of_lt (by omega)

/-- Witness for C3's theorem: the unsorted `[2,1,0]` is rejected, and at
`s = 3` the empty input's `leaf_nodes` is `0`. -/
theorem c3_unsorted_rejected_but_empty_passes_guard_witness :
    cssNew 4 2 [2, 1, 0] = Except.error CSSError.unsortedInput ∧ leafNodes 3 0 = 0 :=
  ⟨c3_unsorted_rejected_but_empty_passes_guard.1 4 2 [2, 1, 0] (by decide),
   c3_unsorted_rejected_but_empty_passes_guard.2.2 3 (by decide)⟩

/-- C8 (the degenerate shape away from the empty input, which is UB).  For
every input with `1 ≤ N ≤ s` the float geometry is exact
(`leaf_nodes = 1`, `log(1.0) = 0` exactly) and the claimed shape holds:
no internal nodes, empty `T`, `size_in_bytes() = 0`, `height() = 0`, and
`find` takes the whole-array scan fast path; in general `size() = N` and
`size_in_bytes() = M·s·sizeof(K)`.  The claim's domain `⌈N/s⌉ ≤ 1` also
contains `N = 0`, where `leaf_nodes = 0` and the program's geometry is
undefined behaviour (`size_t` of `log(0.0) = -inf`), not the claimed
`height() = 0`. -/
theorem c8_degenerate_shape_and_empty_input_ub :
    (∀ nodeSize kSize : Nat, ∀ data : List Int, 1 ≤ slotsPer nodeSize kSize →
      size (cssCtor nodeSize kSize data) = data.length ∧
      size_in_bytes (cssCtor nodeSize kSize data) =
        n_internal (slotsPer nodeSize kSize) data.length * slotsPer nodeSize kSize * kSize ∧
      (1 ≤ data.length → data.length ≤ slotsPer nodeSize kSize →
        leafNodes (slotsPer nodeSize kSize) data.length = 1 ∧
        (cssCtor nodeSize kSize data).n_internal_nodes = 0 ∧
        (cssCtor nodeSize kSize data).tree = [] ∧
        size_in_bytes (cssCtor nodeSize kSize data) = 0 ∧
        height (cssCtor nodeSize kSize data) = 0 ∧
        ∀ k, find (cssCtor nodeSize kSize data) k = find_in_leaves data 0 data.length k)) ∧
    (∀ s : Nat, 1 ≤ s → leafNodes s 0 = 0 ∧ tree_height s 0 = 0) := by
  constructor
  · intro nodeSize kSize data hs
    obtain ⟨ha, hb, hc⟩ := c8_sizes_and_degenerate_shape nodeSize kSize data hs
    refine ⟨ha, hb, ?_⟩
    intro h1 hNs
    obtain ⟨d1, d2, d3, d4, d5⟩ := hc hNs
    have hle := leafNodes_le_one hs hNs
    have hge : 1 ≤ leafNodes (slotsPer nodeSize kSize) data.length := by
      unfold leafNodes
      exact (Nat.le_div_iff_mul_le (by omega)).mpr (by omega)
    exact ⟨by omega, d1, d2, d3, d4, d5⟩
  · intro s hs
    have h0 : leafNodes s 0 = 0 := by
      simp only [leafNodes]
      exact Nat.div_eq_of_lt (by omega)
    refine ⟨h0, ?_⟩
    unfold tree_height
    rw [h0]
    rfl

/-- Witness for C8's theorem: `CSSTree<32, int32_t>` over six keys, and the
empty-input geometry values at `s = 8`. -/
theorem c8_degenerate_shape_and_empty_input_ub_witness :
    (size (cssCtor 32 4 [-3, 2, 4, 11, 35, 60]) = 6 ∧
      size_in_bytes (cssCtor 32 4 [-3, 2, 4, 11, 35, 60]) =
        n_internal (slotsPer 32 4) 6 * slotsPer 32 4 * 4 ∧
      (1 ≤ (6 : Nat) → 6 ≤ slotsPer 32 4 →
        leafNodes (slotsPer 32 4) 6 = 1 ∧
        (cssCtor 32 4 [-3, 2, 4, 11, 35, 60]).n_internal_nodes = 0 ∧
        (cssCtor 32 4 [-3, 2, 4, 11, 35, 60]).tree = [] ∧
        size_in_bytes (cssCtor 32 4 [-3, 2, 4, 11, 35, 60]) = 0 ∧
        height (cssCtor 32 4 [-3, 2, 4, 11, 35, 60]) = 0 ∧
        ∀ k, find (cssCtor 32 4 [-3, 2, 4, 11, 35, 60]) k =
          find_in_leaves [-3, 2, 4, 11, 35, 60] 0 6 k)) ∧
    leafNodes 8 0 = 0 ∧ tree_height 8 0 = 0 :=
  ⟨c8_degenerate_shape_and_empty_input_ub.1 32 4 [-3, 2, 4, 11, 35, 60] (by decide),
   c8_degenerate_shape_and_empty_input_ub.2 8 (by decide)⟩

end CSS

namespace CSS

set_option maxRecDepth 400000 in
/-- C4 (amended).  Under the proviso that the platform's `double` height
computation returns the exact `⌈log_{s+1}(leaf_nodes)⌉` (the faithful
instance `hF = tree_height`): every slot `T[i]` equals `L[e-1]` where `e` is
the effective (last_chunk-clamped) end boundary of the subtree rooted at the
slot's child, sibling subtrees tile `L` (the right child's effective start is
the left child's effective end), every key in the left subtree's effective
range is `≤ T[i]`, and every key in the right subtree's effective range is
`≥ T[i]`; nothing mutates `T`.  The proviso is necessary: on glibc at
`s = 4`, `N = 497` the computed height is `4` (see C6) and the stored slot of
child `32` (slot `i = 25`) holds `L[4]`, while the directory value
`L[endB - 1]` is `L[7]`. -/
theorem c4_directory_exact_height_and_float_divergence (nodeSize kSize : Nat) (L : List Int)
    (hs : 1 ≤ slotsPer nodeSize kSize)
    (h2 : 2 ≤ leafNodes (slotsPer nodeSize kSize) L.length)
    (hsort : List.Pairwise (· ≤ ·) L) :
    (∀ i, i < n_internal (slotsPer nodeSize kSize) L.length * slotsPer nodeSize kSize →
      ((cssCtor nodeSize kSize L).tree.getD i 0 =
        L.getD (endB (slotsPer nodeSize kSize) L.length
          (slotChild (slotsPer nodeSize kSize) i) - 1) 0 ∧
      startB (slotsPer nodeSize kSize) L.length (slotChild (slotsPer nodeSize kSize) i + 1) =
        endB (slotsPer nodeSize kSize) L.length (slotChild (slotsPer nodeSize kSize) i) ∧
      (∀ p, startB (slotsPer nodeSize kSize) L.length (slotChild (slotsPer nodeSize kSize) i) ≤ p →
        p < endB (slotsPer nodeSize kSize) L.length (slotChild (slotsPer nodeSize kSize) i) →
        L.getD p 0 ≤ (cssCtor nodeSize kSize L).tree.getD i 0) ∧
      (∀ p, startB (slotsPer nodeSize kSize) L.length (slotChild (slotsPer nodeSize kSize) i + 1) ≤ p →
        p < endB (slotsPer nodeSize kSize) L.length (slotChild (slotsPer nodeSize kSize) i + 1) →
        (cssCtor nodeSize kSize L).tree.getD i 0 ≤ L.getD p 0))) ∧
    slotChild 4 25 = 32 ∧
    slotValP 4 497 4 data497 25 = 4 ∧
    slotVal 4 497 data497 25 = 7 ∧
    data497.getD (endB 4 497 (slotChild 4 25) - 1) 0 = 7 :=
  ⟨c4_amended_directory nodeSize kSize L hs h2 hsort, by decide, by decide, by decide,
   by decide⟩

set_option maxRecDepth 400000 in
/-- Witness for the amended C4 on the special-case tree of the counterexample
(`CSSTree<4, int16_t>` over `0..6`), with the float-height divergence
instance. -/
theorem c4_directory_exact_height_and_float_divergence_witness :
    1 ≤ slotsPer 4 2 ∧ 2 ≤ leafNodes (slotsPer 4 2) dataC.length ∧
    List.Pairwise (· ≤ ·) dataC ∧
    ((∀ i, i < n_internal (slotsPer 4 2) dataC.length * slotsPer 4 2 →
      ((cssCtor 4 2 dataC).tree.getD i 0 =
        dataC.getD (endB (slotsPer 4 2) dataC.length (slotChild (slotsPer 4 2) i) - 1) 0 ∧
      startB (slotsPer 4 2) dataC.length (slotChild (slotsPer 4 2) i + 1) =
        endB (slotsPer 4 2) dataC.length (slotChild (slotsPer 4 2) i) ∧
      (∀ p, startB (slotsPer 4 2) dataC.length (slotChild (slotsPer 4 2) i) ≤ p →
        p < endB (slotsPer 4 2) dataC.length (slotChild (slotsPer 4 2) i) →
        dataC.getD p 0 ≤ (cssCtor 4 2 dataC).tree.getD i 0) ∧
      (∀ p, startB (slotsPer 4 2) dataC.length (slotChild (slotsPer 4 2) i + 1) ≤ p →
        p < endB (slotsPer 4 2) dataC.length (slotChild (slotsPer 4 2) i + 1) →
        (cssCtor 4 2 dataC).tree.getD i 0 ≤ dataC.getD p 0))) ∧
    slotChild 4 25 = 32 ∧
    slotValP 4 497 4 data497 25 = 4 ∧
    slotVal 4 497 data497 25 = 7 ∧
    data497.getD (endB 4 497 (slotChild 4 25) - 1) 0 = 7) :=
  ⟨by decide, by decide, by decide,
   c4_directory_exact_height_and_float_divergence 4 2 dataC (by decide) (by decide) (by decide)⟩

end CSS

namespace CSS

/-- At an exact power `leaf_nodes = (s+1)^h` — the only realistic inputs
where common `libm`s round the height up — the geometry stored with computed
height `h+1`: `D = (s+1)^h`, `H = M + (s+1)^h`, and `M*s = (s+1)^h - 1`. -/
theorem geomP_at_power (s N h : Nat) (hs : 1 ≤ s) (hln : leafNodes s N = (s + 1) ^ h) :
    last_internalP s N (h + 1) = (s + 1) ^ h ∧
    half_markerP s N (h + 1) = n_internalP s N (h + 1) + (s + 1) ^ h ∧
    n_internalP s N (h + 1) * s + 1 = (s + 1) ^ h := by
  have hB1 : 1 ≤ (s + 1) ^ h := Nat.one_le_pow _ _ (by omega)
  have hA : (s + 1) ^ (h + 1) = (s + 1) ^ h * s + (s + 1) ^ h := by
    rw [pow_succ]; ring
  have hsH : s * half_markerP s N (h + 1) + 1 = (s + 1) ^ (h + 1) := by
    have hlev := (levH_spec s hs (h + 1)).1
    have he : half_markerP s N (h + 1) = levH s (h + 1) := rfl
    rw [he]
    omega
  have hD : last_internalP s N (h + 1) = (s + 1) ^ h := by
    have hc : s * (s + 1) ^ h = (s + 1) ^ h * s := by ring
    have hnum : (s + 1) ^ (h + 1) - (s + 1) ^ h = s * (s + 1) ^ h := by omega
    simp only [last_internalP]
    rw [hln, hnum]
    exact Nat.mul_div_cancel_left _ (by omega)
  have hBH : (s + 1) ^ h ≤ half_markerP s N (h + 1) := by
    have hc : s * (s + 1) ^ h = (s + 1) ^ h * s := by ring
    have hmul : s * (s + 1) ^ h ≤ s * half_markerP s N (h + 1) := by omega
    exact Nat.le_of_mul_le_mul_left hmul (by omega)
  have hMdef : n_internalP s N (h + 1)
      = half_markerP s N (h + 1) - last_internalP s N (h + 1) := rfl
  have hM2 : n_internalP s N (h + 1) = half_markerP s N (h + 1) - (s + 1) ^ h := by
    rw [hMdef, hD]
  refine ⟨hD, by omega, ?_⟩
  have hsub : (half_markerP s N (h + 1) - (s + 1) ^ h) * s
      = half_markerP s N (h + 1) * s - (s + 1) ^ h * s := Nat.sub_mul _ _ _
  have hcomm : half_markerP s N (h + 1) * s = s * half_markerP s N (h + 1) := by ring
  rw [hM2]
  omega

/-- C10.  For `N > s` every leaf index the builder reads is within `[0, N)`
(first part: the exact-height geometry, all three branches, and every slot
receives an element of `L`).  Second part: at the inputs where common `libm`s
round the computed height up by one — `leaf_nodes` an exact power `(s+1)^h` —
the builder over the stored geometry (height `h+1`) takes the wrap branch for
every slot and its index `diff + N + s - 1` still lies within `[0, N)`: the
builder stays in bounds on the divergent platforms as well. -/
theorem c10_builder_in_bounds_incl_rounded_height :
    (∀ s N : Nat, ∀ L : List Int, 1 ≤ s → s < N → L.length = N →
      ∀ i, i < n_internal s N * s →
        ((((descRight s N (slotChild s i) : Int) - half_marker s N) * s < 0 →
          0 ≤ ((descRight s N (slotChild s i) : Int) - half_marker s N) * s + N + s - 1 ∧
          ((descRight s N (slotChild s i) : Int) - half_marker s N) * s + N + s - 1 < N) ∧
        (0 ≤ ((descRight s N (slotChild s i) : Int) - half_marker s N) * s →
          ((descRight s N (slotChild s i) : Int) - half_marker s N) * s + s - 1 <
            (N : Int) - last_internal s N * s →
          0 ≤ ((descRight s N (slotChild s i) : Int) - half_marker s N) * s + s - 1 ∧
          ((descRight s N (slotChild s i) : Int) - half_marker s N) * s + s - 1 < N) ∧
        (1 ≤ last_chunk s N ∧ last_chunk s N - 1 < N)) ∧
        ∃ j, ∃ hj : j < L.length, slotVal s N L i = L.get ⟨j, hj⟩) ∧
    (∀ s N h : Nat, 1 ≤ s → leafNodes s N = (s + 1) ^ h →
      ∀ i, i < n_internalP s N (h + 1) * s →
        ((descRightP s N (h + 1) (slotChild s i) : Int) - half_markerP s N (h + 1)) * s < 0 ∧
        0 ≤ ((descRightP s N (h + 1) (slotChild s i) : Int) - half_markerP s N (h + 1)) * s
          + N + s - 1 ∧
        ((descRightP s N (h + 1) (slotChild s i) : Int) - half_markerP s N (h + 1)) * s
          + N + s - 1 < N) := by
  constructor
  · intro s N L hs hN hL
    exact c10_builder_reads_in_bounds s N L hs hN hL
  · intro s N h hs hln i hi
    obtain ⟨hD, hHM, hMs⟩ := geomP_at_power s N h hs hln
    have hB1 : 1 ≤ (s + 1) ^ h := Nat.one_le_pow _ _ (by omega)
    have hcM : n_internalP s N (h + 1) ≤ descRightP s N (h + 1) (slotChild s i) :=
      descRF_ge _ _ _ _ (by omega)
    have hM1 : 1 ≤ n_internalP s N (h + 1) := by
      by_contra hc
      push_neg at hc
      have hz : n_internalP s N (h + 1) * s ≤ 0 * s :=
        Nat.mul_le_mul_right _ (by omega)
      omega
    have hidiv : i / s < n_internalP s N (h + 1) :=
      (Nat.div_lt_iff_lt_mul (by omega)).mpr hi
    have himod : i % s < s := Nat.mod_lt _ (by omega)
    have hscle : slotChild s i ≤ n_internalP s N (h + 1) * (s + 1) := by
      unfold slotChild
      have hq : (i / s) * (s + 1) ≤ (n_internalP s N (h + 1) - 1) * (s + 1) :=
        Nat.mul_le_mul_right _ (by omega)
      have hexp : n_internalP s N (h + 1) * (s + 1)
          = (n_internalP s N (h + 1) - 1) * (s + 1) + (s + 1) := by
        have h1 : n_internalP s N (h + 1) = (n_internalP s N (h + 1) - 1) + 1 := by omega
        calc n_internalP s N (h + 1) * (s + 1)
            = ((n_internalP s N (h + 1) - 1) + 1) * (s + 1) := by rw [← h1]
          _ = (n_internalP s N (h + 1) - 1) * (s + 1) + (s + 1) := by ring
      omega
    have hcle : descRightP s N (h + 1) (slotChild s i) ≤ n_internalP s N (h + 1) * (s + 1) :=
      descRF_le _ _ _ _ hscle
    have hMs1 : n_internalP s N (h + 1) * (s + 1)
        = n_internalP s N (h + 1) * s + n_internalP s N (h + 1) := by ring
    have hcH : descRightP s N (h + 1) (slotChild s i) < half_markerP s N (h + 1) := by
      omega
    have hprod := cast_sub_mul_neg (descRightP s N (h + 1) (slotChild s i))
      (half_markerP s N (h + 1)) s hcH
    have hX1 : 1 * s ≤
        (half_markerP s N (h + 1) - descRightP s N (h + 1) (slotChild s i)) * s :=
      Nat.mul_le_mul_right _ (by omega)
    have hXD : (half_markerP s N (h + 1) - descRightP s N (h + 1) (slotChild s i)) * s
        ≤ (s + 1) ^ h * s := Nat.mul_le_mul_right _ (by omega)
    have hBs : (s + 1) ^ h * s ≤ N + s - 1 := by
      rw [← hln]
      have hdm : leafNodes s N * s ≤ N + s - 1 := Nat.div_mul_le_self _ _
      exact hdm
    refine ⟨?_, ?_, ?_⟩
    · rw [hprod]
      omega
    · rw [hprod]
      omega
    · rw [hprod]
      omega

end CSS

namespace CSS

/-- Witness for C10's theorem: the special-case tree (`s = 2`, `N = 7`) for
the exact-height part, and `s = 4`, `N = 497`, `h = 3`, slot `25` (child `32`)
for the rounded-height part. -/
theorem c10_builder_in_bounds_incl_rounded_height_witness :
    (∀ i, i < n_internal 2 7 * 2 →
      ((((descRight 2 7 (slotChild 2 i) : Int) - half_marker 2 7) * 2 < 0 →
        0 ≤ ((descRight 2 7 (slotChild 2 i) : Int) - half_marker 2 7) * 2 + 7 + 2 - 1 ∧
        ((descRight 2 7 (slotChild 2 i) : Int) - half_marker 2 7) * 2 + 7 + 2 - 1 < 7) ∧
      (0 ≤ ((descRight 2 7 (slotChild 2 i) : Int) - half_marker 2 7) * 2 →
        ((descRight 2 7 (slotChild 2 i) : Int) - half_marker 2 7) * 2 + 2 - 1 <
          (7 : Int) - last_internal 2 7 * 2 →
        0 ≤ ((descRight 2 7 (slotChild 2 i) : Int) - half_marker 2 7) * 2 + 2 - 1 ∧
        ((descRight 2 7 (slotChild 2 i) : Int) - half_marker 2 7) * 2 + 2 - 1 < 7) ∧
      (1 ≤ last_chunk 2 7 ∧ last_chunk 2 7 - 1 < 7)) ∧
      ∃ j, ∃ hj : j < dataC.length, slotVal 2 7 dataC i = dataC.get ⟨j, hj⟩) ∧
    (((descRightP 4 497 (3 + 1) (slotChild 4 25) : Int) - half_markerP 4 497 (3 + 1)) * 4 < 0 ∧
      0 ≤ ((descRightP 4 497 (3 + 1) (slotChild 4 25) : Int) - half_markerP 4 497 (3 + 1)) * 4
        + 497 + 4 - 1 ∧
      ((descRightP 4 497 (3 + 1) (slotChild 4 25) : Int) - half_markerP 4 497 (3 + 1)) * 4
        + 497 + 4 - 1 < 497) :=
  ⟨c10_builder_in_bounds_incl_rounded_height.1 2 7 dataC (by decide) (by decide) (by decide),
   c10_builder_in_bounds_incl_rounded_height.2 4 497 3 (by decide) (by decide) 25 (by decide)⟩

end CSS
